import Mathlib

/-!
Verification of the segmented radix sort orchestration engine of rocPRIM
(`rocprim/device/device_segmented_radix_sort.hpp`).

The host-side orchestration (radix pass scheduling, temporary storage sizing
and carving, segment classification dispatch, double-buffer bookkeeping and
error propagation) is translated from the source header.  The external
collaborators whose sources are not part of the repository snapshot (the
per-segment digit-pass kernels of `detail/device_segmented_radix_sort.hpp`,
the stable partition primitive of `device_partition.hpp`, the tuned
configuration of `device_segmented_radix_sort_config.hpp` and the helpers
`ceiling_div` / `align_size` of `detail/various.hpp`) are modelled from the
specification, as indicated on each such definition.
-/

namespace SegSort

/-! ### 32-bit unsigned machine arithmetic

The host code computes with C++ `unsigned int` values; subtraction and
multiplication wrap modulo `2^32`. -/

/-- `2^32`, the modulus of C++ `unsigned int` arithmetic. -/
def u32 : Nat := 4294967296

/-- 32-bit unsigned subtraction `a - b` (wraps modulo `2^32`). -/
def u32sub (a b : Nat) : Nat := (a % u32 + (u32 - b % u32)) % u32

/-- 32-bit unsigned multiplication `a * b` (wraps modulo `2^32`). -/
def u32mul (a b : Nat) : Nat := a * b % u32

theorem u32_pos : 0 < u32 := by decide

/-- On in-range operands with no borrow, unsigned subtraction is `Nat`
subtraction. -/
theorem u32sub_eq (a b : Nat) (hba : b ≤ a) (ha : a < u32) : u32sub a b = a - b := by
  unfold u32sub
  have hb : b < u32 := Nat.lt_of_le_of_lt hba ha
  rw [Nat.mod_eq_of_lt ha, Nat.mod_eq_of_lt hb]
  have h1 : a + (u32 - b) = u32 + (a - b) := by omega
  rw [h1, Nat.add_mod_left, Nat.mod_eq_of_lt (by omega)]

/-- On small operands, unsigned multiplication is `Nat` multiplication. -/
theorem u32mul_eq (a b : Nat) (h : a * b < u32) : u32mul a b = a * b := by
  unfold u32mul
  exact Nat.mod_eq_of_lt h

/-- Modelled from the spec: `rocprim::detail::ceiling_div` (its source,
`detail/various.hpp`, is not under `src/`); the spec prescribes
`iterations = ceil(bits / long_width)`. -/
def ceiling_div (a b : Nat) : Nat := (a + b - 1) / b

theorem ceiling_div_le (a b : Nat) (hb : 0 < b) : a ≤ ceiling_div a b * b := by
  unfold ceiling_div
  have h := Nat.div_add_mod (a + b - 1) b
  have h2 : (a + b - 1) % b < b := Nat.mod_lt _ hb
  have h3 : (a + b - 1) / b * b = b * ((a + b - 1) / b) := Nat.mul_comm _ _
  omega

theorem ceiling_div_le_self (a b : Nat) (hb : 0 < b) : ceiling_div a b ≤ a := by
  unfold ceiling_div
  have h0 : a ≤ b * a := Nat.le_mul_of_pos_left a hb
  have h1 : a + b - 1 ≤ b - 1 + b * a := by omega
  have h2 : (a + b - 1) / b ≤ (b - 1 + b * a) / b := Nat.div_le_div_right h1
  have h3 : (b - 1 + b * a) / b = (b - 1) / b + a := Nat.add_mul_div_left _ _ hb
  have h4 : (b - 1) / b = 0 := Nat.div_eq_of_lt (by omega)
  omega

/-- Modelled from the spec: `rocprim::detail::align_size`
(`detail/various.hpp` is not under `src/`); the spec states that scratch
region sizes are rounded up to an alignment boundary of 256 bytes. -/
def alignment : Nat := 256

/-- Modelled from the spec: round `n` up to a multiple of the alignment. -/
def align_size (n : Nat) : Nat := ceiling_div n alignment * alignment

theorem le_align_size (n : Nat) : n ≤ align_size n := by
  unfold align_size
  have h := ceiling_div_le n alignment (by decide)
  omega

/-! ### Configuration

Modelled from the spec: the tuned configuration resolved per key/value type
(`device_segmented_radix_sort_config.hpp` is not under `src/`).  It carries
the long and short digit widths of the pass scheduler, the warp-sort
(small-segment strategy) geometry and the partitioning threshold; whether the
warp-sort backend exists for the type combination is the
`partitioning_allowed` flag (`!std::is_same<warp_sort_config,
DisabledWarpSortConfig>` in the source). -/

structure Config where
  long_radix_bits : Nat
  short_radix_bits : Nat
  wsort_block_size : Nat
  wsort_logical_warp_size : Nat
  wsort_items_per_thread : Nat
  partitioning_threshold : Nat
  partitioning_allowed : Bool

/-- `config::warp_sort_config::items_per_thread * logical_warp_size`
(source line 223): the longest segment the small-segment strategy accepts. -/
def max_small_segment_length (cfg : Config) : Nat :=
  cfg.wsort_items_per_thread * cfg.wsort_logical_warp_size

/-- `config::warp_sort_config::block_size / logical_warp_size`
(source line 225): how many small segments one block batches. -/
def small_segments_per_block (cfg : Config) : Nat :=
  cfg.wsort_block_size / cfg.wsort_logical_warp_size

/-- `partitioning_allowed && segments >= partitioning_threshold`
(source lines 243-244). -/
def do_partitioning (cfg : Config) (segments : Nat) : Bool :=
  cfg.partitioning_allowed && decide (cfg.partitioning_threshold ≤ segments)

/-! ### The radix pass scheduler

Translated from `segmented_radix_sort_impl`, source lines 233-242. -/

structure Sched where
  bits : Nat
  iterations : Nat
  to_output : Bool
  is_result_in_output : Bool
  short_iterations : Nat
  long_iterations : Nat

/-- The pass/parity computation of `segmented_radix_sort_impl`
(source lines 233-242), in C++ `unsigned int` arithmetic. -/
def scheduler (cfg : Config) (with_double_buffer : Bool) (begin_bit end_bit : Nat) : Sched :=
  let bits := u32sub end_bit begin_bit
  let iterations := ceiling_div bits cfg.long_radix_bits
  let to_output := with_double_buffer || decide (u32sub iterations 1 % 2 = 0)
  let is_result_in_output := decide (iterations % 2 = 0) != to_output
  let radix_bits_diff := u32sub cfg.long_radix_bits cfg.short_radix_bits
  let short_iterations :=
    if radix_bits_diff ≠ 0 then
      min iterations (u32sub (u32mul cfg.long_radix_bits iterations) bits / radix_bits_diff)
    else 0
  let long_iterations := u32sub iterations short_iterations
  ⟨bits, iterations, to_output, is_result_in_output, short_iterations, long_iterations⟩

/-- Convenient bounds: with sane widths and bit range, every scheduler
quantity is small and the unsigned arithmetic never wraps. -/
theorem scheduler_eq (cfg : Config) (wdb : Bool) (bb eb : Nat)
    (hbe : bb ≤ eb) (heb : eb ≤ 64) (hL : 0 < cfg.long_radix_bits)
    (hL64 : cfg.long_radix_bits ≤ 64) (hSL : cfg.short_radix_bits ≤ cfg.long_radix_bits) :
    (scheduler cfg wdb bb eb).bits = eb - bb ∧
    (scheduler cfg wdb bb eb).iterations = ceiling_div (eb - bb) cfg.long_radix_bits ∧
    (scheduler cfg wdb bb eb).short_iterations =
      (if cfg.long_radix_bits - cfg.short_radix_bits ≠ 0 then
        min (ceiling_div (eb - bb) cfg.long_radix_bits)
          ((cfg.long_radix_bits * ceiling_div (eb - bb) cfg.long_radix_bits - (eb - bb)) /
            (cfg.long_radix_bits - cfg.short_radix_bits))
       else 0) ∧
    (scheduler cfg wdb bb eb).long_iterations =
      (scheduler cfg wdb bb eb).iterations - (scheduler cfg wdb bb eb).short_iterations := by
  have hbits : u32sub eb bb = eb - bb := u32sub_eq eb bb hbe (by unfold u32; omega)
  have hbitsle : eb - bb ≤ 64 := by omega
  have hit : ceiling_div (eb - bb) cfg.long_radix_bits ≤ 64 :=
    Nat.le_trans (ceiling_div_le_self _ _ hL) hbitsle
  have hdiff : u32sub cfg.long_radix_bits cfg.short_radix_bits
      = cfg.long_radix_bits - cfg.short_radix_bits :=
    u32sub_eq _ _ hSL (by unfold u32; omega)
  have hmul : u32mul cfg.long_radix_bits (ceiling_div (eb - bb) cfg.long_radix_bits)
      = cfg.long_radix_bits * ceiling_div (eb - bb) cfg.long_radix_bits := by
    apply u32mul_eq
    have : cfg.long_radix_bits * ceiling_div (eb - bb) cfg.long_radix_bits ≤ 64 * 64 := by
      exact Nat.mul_le_mul hL64 hit
    unfold u32; omega
  have hble : eb - bb ≤ cfg.long_radix_bits * ceiling_div (eb - bb) cfg.long_radix_bits := by
    have h := ceiling_div_le (eb - bb) cfg.long_radix_bits hL
    have h2 : ceiling_div (eb - bb) cfg.long_radix_bits * cfg.long_radix_bits
        = cfg.long_radix_bits * ceiling_div (eb - bb) cfg.long_radix_bits := Nat.mul_comm _ _
    omega
  have hsub2 : u32sub (cfg.long_radix_bits * ceiling_div (eb - bb) cfg.long_radix_bits) (eb - bb)
      = cfg.long_radix_bits * ceiling_div (eb - bb) cfg.long_radix_bits - (eb - bb) := by
    apply u32sub_eq _ _ hble
    have : cfg.long_radix_bits * ceiling_div (eb - bb) cfg.long_radix_bits ≤ 64 * 64 :=
      Nat.mul_le_mul hL64 hit
    unfold u32; omega
  unfold scheduler
  simp only [hbits, hdiff, hmul, hsub2]
  refine ⟨by trivial, by trivial, by trivial, ?_⟩
  apply u32sub_eq
  · split
    · exact Nat.min_le_left _ _
    · exact Nat.zero_le _
  · unfold u32; omega

/-! ### Stable sorting

The digit-pass kernels of `detail/device_segmented_radix_sort.hpp` are not
under `src/`; per the spec they are stable bucket passes, which we model as a
stable comparison sort by the pass's digit key. -/

section Sorting

variable {α : Type}

/-- Modelled from the spec: stable insertion of `a` into `l` under the strict
comparison `lt`; `a` is placed before the first element not strictly below
it, hence after every earlier element with an equal key. -/
def insertC (lt : α → α → Bool) (a : α) : List α → List α
  | [] => [a]
  | b :: t => if lt b a then b :: insertC lt a t else a :: b :: t

/-- Modelled from the spec: stable comparison sort (insertion sort). -/
def isortC (lt : α → α → Bool) : List α → List α
  | [] => []
  | a :: t => insertC lt a (isortC lt t)

/-- Stable sort by a numeric key, ascending. -/
def sortK (k : α → Nat) (l : List α) : List α :=
  isortC (fun x y => decide (k x < k y)) l

theorem sortK_nil (k : α → Nat) : sortK k ([] : List α) = [] := rfl

theorem sortK_cons (k : α → Nat) (a : α) (t : List α) :
    sortK k (a :: t) = insertC (fun x y => decide (k x < k y)) a (sortK k t) := rfl

theorem length_insertC (lt : α → α → Bool) (a : α) (l : List α) :
    (insertC lt a l).length = l.length + 1 := by
  induction l with
  | nil => rfl
  | cons b t ih =>
    unfold insertC
    split
    · simp [ih]
    · simp

theorem length_isortC (lt : α → α → Bool) (l : List α) :
    (isortC lt l).length = l.length := by
  induction l with
  | nil => rfl
  | cons a t ih => simp [isortC, length_insertC, ih]

theorem length_sortK (k : α → Nat) (l : List α) : (sortK k l).length = l.length :=
  length_isortC _ l

theorem mem_insertC (lt : α → α → Bool) (a x : α) (l : List α) :
    x ∈ insertC lt a l ↔ x = a ∨ x ∈ l := by
  induction l with
  | nil => simp [insertC]
  | cons b t ih =>
    unfold insertC
    split
    · simp only [List.mem_cons, ih]
      tauto
    · simp only [List.mem_cons]

theorem mem_sortK (k : α → Nat) (x : α) (l : List α) : x ∈ sortK k l ↔ x ∈ l := by
  induction l with
  | nil => simp [sortK, isortC]
  | cons a t ih =>
    rw [sortK_cons, mem_insertC]
    simp [ih]

/-- The elements with any fixed key value appear in the insertion result in
the same order as `a :: l`: the inserted element passes only strictly
smaller keys. -/
theorem filter_insertC (k : α → Nat) (a : α) (l : List α) (v : Nat) :
    (insertC (fun x y => decide (k x < k y)) a l).filter (fun x => decide (k x = v))
      = if k a = v then a :: l.filter (fun x => decide (k x = v))
        else l.filter (fun x => decide (k x = v)) := by
  induction l with
  | nil =>
    by_cases hav : k a = v <;> simp [insertC, hav]
  | cons b t ih =>
    by_cases hba : k b < k a
    · have hstep : insertC (fun x y => decide (k x < k y)) a (b :: t)
          = b :: insertC (fun x y => decide (k x < k y)) a t := by
        simp [insertC, hba]
      rw [hstep, List.filter_cons, ih]
      by_cases hbv : k b = v
      · have hav : ¬ (k a = v) := by omega
        simp [hbv, hav, List.filter_cons]
      · simp only [hbv, decide_eq_true_eq, if_neg, List.filter_cons]
        by_cases hav : k a = v <;> simp [hav, hbv]
    · have hstep : insertC (fun x y => decide (k x < k y)) a (b :: t) = a :: b :: t := by
        simp [insertC, hba]
      rw [hstep, List.filter_cons, List.filter_cons]
      by_cases hav : k a = v <;> simp [hav]

/-- Stability of the key sort: for every key value, the subsequence of
elements carrying that value is unchanged. -/
theorem filter_sortK (k : α → Nat) (l : List α) (v : Nat) :
    (sortK k l).filter (fun x => decide (k x = v)) = l.filter (fun x => decide (k x = v)) := by
  induction l with
  | nil => rfl
  | cons a t ih =>
    rw [sortK_cons, filter_insertC]
    by_cases hav : k a = v <;> simp [hav, ih, List.filter_cons]

/-- Sortedness (non-strict, pairwise) by a numeric key. -/
def SortedK (k : α → Nat) (l : List α) : Prop := l.Pairwise (fun a b => k a ≤ k b)

theorem sortedK_insertC (k : α → Nat) (a : α) (l : List α) (h : SortedK k l) :
    SortedK k (insertC (fun x y => decide (k x < k y)) a l) := by
  induction l with
  | nil =>
    simp [insertC, SortedK]
  | cons b t ih =>
    rcases List.pairwise_cons.mp h with ⟨hb, ht⟩
    by_cases hba : k b < k a
    · have hstep : insertC (fun x y => decide (k x < k y)) a (b :: t)
          = b :: insertC (fun x y => decide (k x < k y)) a t := by
        simp [insertC, hba]
      rw [hstep]
      refine List.pairwise_cons.mpr ⟨?_, ih ht⟩
      intro y hy
      rcases (mem_insertC _ a y _).mp hy with rfl | hyt
      · omega
      · exact hb y hyt
    · have hstep : insertC (fun x y => decide (k x < k y)) a (b :: t) = a :: b :: t := by
        simp [insertC, hba]
      rw [hstep]
      refine List.pairwise_cons.mpr ⟨?_, h⟩
      intro y hy
      rcases List.mem_cons.mp hy with rfl | hyt
      · omega
      · have := hb y hyt
        omega

theorem sortedK_sortK (k : α → Nat) (l : List α) : SortedK k (sortK k l) := by
  induction l with
  | nil => simp [sortK, isortC, SortedK]
  | cons a t ih =>
    rw [sortK_cons]
    exact sortedK_insertC k a _ ih

theorem sortedK_filter (k : α → Nat) (p : α → Bool) (l : List α) (h : SortedK k l) :
    SortedK k (l.filter p) :=
  List.Pairwise.sublist (List.filter_sublist l) h

/-- A list is determined by being key-sorted together with its per-key-value
subsequences: the stable sort of a list is unique. -/
theorem eq_of_sortedK_of_filter_eq (k : α → Nat) :
    ∀ (s t : List α), SortedK k s → SortedK k t →
      (∀ v, s.filter (fun x => decide (k x = v)) = t.filter (fun x => decide (k x = v))) →
      s = t := by
  intro s
  induction s with
  | nil =>
    intro t _ _ h
    cases t with
    | nil => rfl
    | cons y t1 =>
      have hy := h (k y)
      simp [List.filter_cons] at hy
  | cons x s1 ih =>
    intro t hs ht h
    cases t with
    | nil =>
      have hx := h (k x)
      simp [List.filter_cons] at hx
    | cons y t1 =>
      rcases List.pairwise_cons.mp hs with ⟨hxs, hs1⟩
      rcases List.pairwise_cons.mp ht with ⟨hyt, ht1⟩
      have hxy : x = y := by
        by_cases hk : k y = k x
        · have hfx := h (k x)
          simp [List.filter_cons, hk] at hfx
          exact hfx.1
        · exfalso
          have hfx := h (k x)
          simp [List.filter_cons, hk] at hfx
          have hxmem : x ∈ t1 := by
            have hmem : x ∈ List.filter (fun z => decide (k z = k x)) t1 := by
              rw [← hfx]
              exact List.mem_cons_self _ _
            exact (List.mem_filter.mp hmem).1
          have hymem : y ∈ s1 := by
            have hk2 : ¬ (k x = k y) := fun h0 => hk h0.symm
            have hfy := h (k y)
            simp [List.filter_cons, hk2] at hfy
            have hmem : y ∈ List.filter (fun z => decide (k z = k y)) s1 := by
              rw [hfy]
              exact List.mem_cons_self _ _
            exact (List.mem_filter.mp hmem).1
          have h1 : k y ≤ k x := hyt x hxmem
          have h2 : k x ≤ k y := hxs y hymem
          omega
      subst hxy
      have htails : s1 = t1 := by
        apply ih t1 hs1 ht1
        intro v
        have hv := h v
        by_cases hxv : k x = v
        · simp [List.filter_cons, hxv] at hv
          exact hv
        · simpa [List.filter_cons, hxv] using hv
      rw [htails]

/-- Sorting an already key-sorted list changes nothing. -/
theorem sortK_eq_self (k : α → Nat) (l : List α) (h : SortedK k l) : sortK k l = l := by
  induction l with
  | nil => rfl
  | cons a t ih =>
    rcases List.pairwise_cons.mp h with ⟨ha, ht⟩
    rw [sortK_cons, ih ht]
    cases t with
    | nil => rfl
    | cons b t2 =>
      have hb : k a ≤ k b := ha b (List.mem_cons_self _ _)
      have hnb : ¬ (k b < k a) := by omega
      simp [insertC, hnb]

theorem sortedK_const (c : Nat) (l : List α) : SortedK (fun _ => c) l := by
  induction l with
  | nil => simp [SortedK]
  | cons a t ih => exact List.pairwise_cons.mpr ⟨fun y _ => Nat.le_refl c, ih⟩

/-- If a list is sorted by an outer key and, within every outer-key class,
sorted by an inner key bounded by `M`, it is sorted by the combined key. -/
theorem sortedK_nested (k1 k2 : α → Nat) (M : Nat) (s : List α)
    (hM : ∀ x ∈ s, k1 x < M) (h2 : SortedK k2 s)
    (h1 : ∀ w, SortedK k1 (s.filter (fun x => decide (k2 x = w)))) :
    SortedK (fun x => k2 x * M + k1 x) s := by
  induction s with
  | nil => simp [SortedK]
  | cons x s ih =>
    rcases List.pairwise_cons.mp h2 with ⟨hx2, hs2⟩
    refine List.pairwise_cons.mpr ⟨?_, ?_⟩
    · intro y hy
      show k2 x * M + k1 x ≤ k2 y * M + k1 y
      have hk2 : k2 x ≤ k2 y := hx2 y hy
      rcases Nat.lt_or_ge (k2 x) (k2 y) with hlt | hge
      · have hx1 : k1 x < M := hM x (List.mem_cons_self _ _)
        have h3 : (k2 x + 1) * M ≤ k2 y * M := Nat.mul_le_mul_right M hlt
        have h4 : (k2 x + 1) * M = k2 x * M + M := by ring
        omega
      · have heq : k2 y = k2 x := by omega
        have hfil := h1 (k2 x)
        have hcons : (x :: s).filter (fun z => decide (k2 z = k2 x))
            = x :: s.filter (fun z => decide (k2 z = k2 x)) := by
          simp [List.filter_cons]
        rw [hcons] at hfil
        rcases List.pairwise_cons.mp hfil with ⟨hxf, _⟩
        have hyf : y ∈ s.filter (fun z => decide (k2 z = k2 x)) :=
          List.mem_filter.mpr ⟨hy, by simp [heq]⟩
        have h5 : k1 x ≤ k1 y := hxf y hyf
        rw [heq]
        omega
    · apply ih (fun z hz => hM z (List.mem_cons_of_mem _ hz)) hs2
      intro w
      have hfil := h1 w
      by_cases hxw : k2 x = w
      · have hcons : (x :: s).filter (fun z => decide (k2 z = w))
            = x :: s.filter (fun z => decide (k2 z = w)) := by
          simp [List.filter_cons, hxw]
        rw [hcons] at hfil
        exact (List.pairwise_cons.mp hfil).2
      · have hcons : (x :: s).filter (fun z => decide (k2 z = w))
            = s.filter (fun z => decide (k2 z = w)) := by
          simp [List.filter_cons, hxw]
        rw [hcons] at hfil
        exact hfil

/-- Splitting a combined-key filter into its digit components. -/
theorem filter_combined (k1 k2 : α → Nat) (M v : Nat) (m : List α)
    (hM : ∀ x ∈ m, k1 x < M) :
    m.filter (fun x => decide (k2 x * M + k1 x = v))
      = (m.filter (fun x => decide (k2 x = v / M))).filter
          (fun x => decide (k1 x = v % M)) := by
  rw [List.filter_filter]
  apply List.filter_congr
  intro x hx
  have hx1 : k1 x < M := hM x hx
  have hM0 : 0 < M := by omega
  have hiff : (k2 x * M + k1 x = v) ↔ (k1 x = v % M ∧ k2 x = v / M) := by
    constructor
    · intro he
      have hrw : k2 x * M + k1 x = k1 x + M * k2 x := by ring
      rw [hrw] at he
      subst he
      constructor
      · rw [Nat.add_mul_mod_self_left]
        exact (Nat.mod_eq_of_lt hx1).symm
      · rw [Nat.add_mul_div_left _ _ hM0, Nat.div_eq_of_lt hx1]
        omega
    · rintro ⟨h1, h2⟩
      have hv := Nat.div_add_mod v M
      rw [← h1, ← h2] at hv
      have hc : M * k2 x = k2 x * M := Nat.mul_comm _ _
      omega
  calc decide (k2 x * M + k1 x = v)
      = decide (k1 x = v % M ∧ k2 x = v / M) := decide_eq_decide.mpr hiff
    _ = (decide (k1 x = v % M) && decide (k2 x = v / M)) := by simp

/-- Composition of stable sorts: a stable sort by an inner (less significant)
key followed by a stable sort by an outer key equals the stable sort by the
combined key.  This is the correctness of LSD radix passes. -/
theorem sortK_sortK (k1 k2 : α → Nat) (M : Nat) (hM : ∀ x, k1 x < M) (l : List α) :
    sortK k2 (sortK k1 l) = sortK (fun x => k2 x * M + k1 x) l := by
  apply eq_of_sortedK_of_filter_eq (fun x => k2 x * M + k1 x)
  · apply sortedK_nested k1 k2 M _ (fun x _ => hM x) (sortedK_sortK k2 _)
    intro w
    rw [filter_sortK k2 (sortK k1 l) w]
    exact sortedK_filter k1 _ _ (sortedK_sortK k1 l)
  · exact sortedK_sortK _ l
  · intro v
    rw [filter_sortK (fun x => k2 x * M + k1 x) l v]
    rw [filter_combined k1 k2 M v _ (fun x _ => hM x),
        filter_combined k1 k2 M v l (fun x _ => hM x)]
    rw [filter_sortK k2 (sortK k1 l) (v / M)]
    have hcomm : ∀ (m : List α),
        (m.filter (fun a => decide (k2 a = v / M))).filter (fun a => decide (k1 a = v % M))
          = (m.filter (fun a => decide (k1 a = v % M))).filter
              (fun a => decide (k2 a = v / M)) := by
      intro m
      rw [List.filter_filter, List.filter_filter]
      apply List.filter_congr
      intro x _
      exact Bool.and_comm _ _
    rw [hcomm, hcomm, filter_sortK k1 l (v % M)]

theorem sortK_key_congr (k k2 : α → Nat) (l : List α) (h : ∀ x, k x = k2 x) :
    sortK k l = sortK k2 l := by
  have he : k = k2 := funext h
  rw [he]

end Sorting

/-! ### Digit extraction and radix passes

Modelled from the spec: the kernels of `detail/device_segmented_radix_sort.hpp`
are not under `src/`; the spec describes each digit pass as a stable bucket
pass on a fixed-width slice of the key bits, the passes covering
`[begin_bit, end_bit)` least-significant digit first with no gaps or
overlaps. -/

/-- The value of the key bits in `[b, b + w)`. -/
def bitSlice (b w x : Nat) : Nat := x / 2 ^ b % 2 ^ w

/-- The ordering key one digit pass sorts by; a descending pass orders
digit values in reverse. -/
def digitKey (descending : Bool) (b w x : Nat) : Nat :=
  if descending then 2 ^ w - 1 - bitSlice b w x else bitSlice b w x

theorem bitSlice_lt (b w x : Nat) : bitSlice b w x < 2 ^ w :=
  Nat.mod_lt _ (Nat.two_pow_pos w)

theorem digitKey_lt (d : Bool) (b w : Nat) (x : Nat) : digitKey d b w x < 2 ^ w := by
  have h := bitSlice_lt b w x
  have h2 : 0 < 2 ^ w := Nat.two_pow_pos w
  unfold digitKey
  split <;> omega

theorem digitKey_zero_width (d : Bool) (b x : Nat) : digitKey d b 0 x = 0 := by
  have h : bitSlice b 0 x = 0 := by simp [bitSlice, Nat.mod_one]
  unfold digitKey
  split <;> simp [h]

/-- A wide digit is its high part shifted, plus its low part. -/
theorem bitSlice_split (b w r x : Nat) :
    bitSlice b (w + r) x = bitSlice (b + w) r x * 2 ^ w + bitSlice b w x := by
  unfold bitSlice
  rw [Nat.pow_add, Nat.mod_mul, Nat.div_div_eq_div_mul, ← Nat.pow_add]
  ring

theorem digitKey_split (d : Bool) (b w r x : Nat) :
    digitKey d b (w + r) x = digitKey d (b + w) r x * 2 ^ w + digitKey d b w x := by
  cases d with
  | false =>
    simpa [digitKey] using bitSlice_split b w r x
  | true =>
    have h1 := bitSlice_lt b w x
    have h2 := bitSlice_lt (b + w) r x
    have h3 := bitSlice_split b w r x
    have hA : 0 < 2 ^ w := Nat.two_pow_pos w
    have hpow : 2 ^ (w + r) = 2 ^ w * 2 ^ r := Nat.pow_add 2 w r
    have e1 : (2 ^ r - 1 - bitSlice (b + w) r x) * 2 ^ w
        = 2 ^ r * 2 ^ w - 1 * 2 ^ w - bitSlice (b + w) r x * 2 ^ w := by
      rw [Nat.sub_mul, Nat.sub_mul]
    have e2 : 2 ^ w * 2 ^ r = 2 ^ r * 2 ^ w := Nat.mul_comm _ _
    have e3 : (bitSlice (b + w) r x + 1) * 2 ^ w ≤ 2 ^ r * 2 ^ w :=
      Nat.mul_le_mul_right _ (Nat.succ_le_of_lt h2)
    have e4 : (bitSlice (b + w) r x + 1) * 2 ^ w = bitSlice (b + w) r x * 2 ^ w + 2 ^ w := by
      ring
    simp only [digitKey, if_pos]
    omega

/-- Modelled from the spec: one radix digit pass, a stable bucket sort by the
digit in `[b, b + w)` (the digit-pass primitive's contract). -/
def digitPass (descending : Bool) (kf : α → Nat) (b w : Nat) (l : List α) : List α :=
  sortK (fun x => digitKey descending b w (kf x)) l

/-- Modelled from the spec: run the scheduled digit passes, least significant
digit first, starting at bit `b`.  Each pass extracts the digit of the
scheduled width clamped at `end_bit` — the passes cover
`[begin_bit, end_bit)` with no gaps or overlaps and never read bits at or
past `end_bit` — while the bit cursor advances by the scheduled width, as in
the kernel's pass loop. -/
def runPasses (descending : Bool) (kf : α → Nat) (end_bit : Nat) :
    List Nat → Nat → List α → List α
  | [], _, l => l
  | w :: ws, b, l =>
      runPasses descending kf end_bit ws (b + w)
        (digitPass descending kf b (min w (end_bit - b)) l)

/-- Correctness of the LSD pass sequence: running stable digit passes over
consecutive bit ranges clamped at `end_bit` equals one stable sort by the
covered bit range, whatever the scheduled widths. -/
theorem runPasses_eq_sortK (d : Bool) (kf : α → Nat) (eb : Nat) (ws : List Nat)
    (b : Nat) (l : List α) :
    runPasses d kf eb ws b l
      = sortK (fun x => digitKey d b (min ws.sum (eb - b)) (kf x)) l := by
  induction ws generalizing b l with
  | nil =>
    have hk : (fun x : α => digitKey d b (min (List.sum []) (eb - b)) (kf x))
        = fun _ => 0 := by
      funext x
      simpa using digitKey_zero_width d b (kf x)
    rw [runPasses, hk]
    exact (sortK_eq_self _ _ (sortedK_const 0 l)).symm
  | cons w ws ih =>
    rw [runPasses, ih]
    unfold digitPass
    rw [sortK_sortK (fun x => digitKey d b (min w (eb - b)) (kf x))
        (fun x => digitKey d (b + w) (min ws.sum (eb - (b + w))) (kf x))
        (2 ^ min w (eb - b))
        (fun x => digitKey_lt d b (min w (eb - b)) (kf x)) l]
    apply sortK_key_congr
    intro x
    rw [List.sum_cons]
    by_cases hc : w ≤ eb - b
    · have hw : min w (eb - b) = w := by omega
      have hr : eb - (b + w) = eb - b - w := by omega
      have hmin : min (w + ws.sum) (eb - b) = w + min ws.sum (eb - b - w) := by omega
      rw [hw, hr, hmin]
      exact (digitKey_split d b w (min ws.sum (eb - b - w)) (kf x)).symm
    · have hw : min w (eb - b) = eb - b := by omega
      have hr0 : min ws.sum (eb - (b + w)) = 0 := by omega
      have hmin : min (w + ws.sum) (eb - b) = eb - b := by omega
      rw [hw, hr0, hmin, digitKey_zero_width]
      simp

/-- Reference stable sort, following the spec's words: order the elements by
comparing only the key bits in `[begin_bit, end_bit)`, ascending or
descending per the entry point; equal keys keep their original relative
order (stable insertion sort). -/
def specSort (descending : Bool) (kf : α → Nat) (begin_bit end_bit : Nat)
    (l : List α) : List α :=
  isortC (fun x y =>
    if descending then
      decide (bitSlice begin_bit (end_bit - begin_bit) (kf y)
        < bitSlice begin_bit (end_bit - begin_bit) (kf x))
    else
      decide (bitSlice begin_bit (end_bit - begin_bit) (kf x)
        < bitSlice begin_bit (end_bit - begin_bit) (kf y))) l

/-- The reference sort is the stable key sort by the (direction-adjusted)
digit key of the whole selected bit range. -/
theorem specSort_eq_sortK (d : Bool) (kf : α → Nat) (bb eb : Nat) (l : List α) :
    specSort d kf bb eb l = sortK (fun x => digitKey d bb (eb - bb) (kf x)) l := by
  unfold specSort sortK
  congr 1
  funext x y
  cases d with
  | false => simp [digitKey]
  | true =>
    have h1 := bitSlice_lt bb (eb - bb) (kf x)
    have h2 := bitSlice_lt bb (eb - bb) (kf y)
    have hA : 0 < 2 ^ (eb - bb) := Nat.two_pow_pos _
    simp only [if_pos, digitKey]
    apply decide_eq_decide.mpr
    constructor <;> intro <;> omega

/-! ### Segments of the flat key/value array -/

section Segments

variable {α : Type}

/-- The contents of the flat array in the index range `[b, e)`. -/
def sliceList (b e : Nat) (l : List α) : List α := (l.drop b).take (e - b)

/-- Overwrite the range starting at index `b` with `seg`. -/
def writeSeg (b : Nat) (seg l : List α) : List α :=
  l.take b ++ seg ++ l.drop (b + seg.length)

/-- Sort one segment `[be.1, be.2)` with `f`, reading it from `src` and
writing the sorted segment into `dst` (each worker group reads its segment
from the input iterator and writes to the destination buffer). -/
def applySeg (f : List α → List α) (src : List α) (be : Nat × Nat) (dst : List α) : List α :=
  writeSeg be.1 (f (sliceList be.1 be.2 src)) dst

/-- One dispatch over a set of segments: every listed segment of `src` is
sorted and written into the accumulating destination. -/
def scatterSort (f : List α → List α) (offs : List (Nat × Nat)) (src dst : List α) : List α :=
  offs.foldl (fun acc be => applySeg f src be acc) dst

theorem scatterSort_nil (f : List α → List α) (src dst : List α) :
    scatterSort f [] src dst = dst := rfl

theorem scatterSort_cons (f : List α → List α) (be : Nat × Nat) (rest : List (Nat × Nat))
    (src dst : List α) :
    scatterSort f (be :: rest) src dst = scatterSort f rest src (applySeg f src be dst) := rfl

/-- Segment ranges are well formed and within the array. -/
def ValidSegs (offs : List (Nat × Nat)) (n : Nat) : Prop :=
  ∀ be ∈ offs, be.1 ≤ be.2 ∧ be.2 ≤ n

instance validSegs_decidable (offs : List (Nat × Nat)) (n : Nat) :
    Decidable (ValidSegs offs n) :=
  inferInstanceAs (Decidable (∀ be ∈ offs, be.1 ≤ be.2 ∧ be.2 ≤ n))

/-- The index ranges `[p.1, p.2)` and `[q.1, q.2)` do not overlap. -/
def disjSeg (p q : Nat × Nat) : Prop := p.2 ≤ q.1 ∨ q.2 ≤ p.1

instance disjSeg_decidable : DecidableRel (disjSeg) := fun p q =>
  inferInstanceAs (Decidable (p.2 ≤ q.1 ∨ q.2 ≤ p.1))

theorem disjSeg_symm : Symmetric disjSeg := by
  intro p q h
  rcases h with h | h
  · exact Or.inr h
  · exact Or.inl h

theorem length_sliceList (b e : Nat) (l : List α) (hb : b ≤ e) (he : e ≤ l.length) :
    (sliceList b e l).length = e - b := by
  unfold sliceList
  rw [List.length_take, List.length_drop]
  exact Nat.min_eq_left (by omega)

theorem length_writeSeg (b : Nat) (seg l : List α) (h : b + seg.length ≤ l.length) :
    (writeSeg b seg l).length = l.length := by
  unfold writeSeg
  rw [List.length_append, List.length_append, List.length_take, List.length_drop]
  have hmin : min b l.length = b := Nat.min_eq_left (by omega)
  omega

theorem length_applySeg (f : List α → List α) (hf : ∀ s, (f s).length = s.length)
    (src : List α) (be : Nat × Nat) (dst : List α)
    (h1 : be.1 ≤ be.2) (h2 : be.2 ≤ src.length) (hd : dst.length = src.length) :
    (applySeg f src be dst).length = dst.length := by
  unfold applySeg
  apply length_writeSeg
  rw [hf, length_sliceList be.1 be.2 src h1 h2]
  omega

theorem length_scatterSort (f : List α → List α) (hf : ∀ s, (f s).length = s.length)
    (offs : List (Nat × Nat)) (src dst : List α)
    (hv : ValidSegs offs src.length) (hd : dst.length = src.length) :
    (scatterSort f offs src dst).length = dst.length := by
  induction offs generalizing dst with
  | nil => rfl
  | cons be rest ih =>
    have hbe := hv be (List.mem_cons_self _ _)
    have h1 : (applySeg f src be dst).length = dst.length :=
      length_applySeg f hf src be dst hbe.1 hbe.2 hd
    rw [scatterSort_cons,
      ih _ (fun q hq => hv q (List.mem_cons_of_mem _ hq)) (by rw [h1]; exact hd), h1]

theorem getElem?_writeSeg (b : Nat) (seg l : List α) (j : Nat) (hb : b ≤ l.length) :
    (writeSeg b seg l)[j]? =
      if j < b then l[j]?
      else if j < b + seg.length then seg[j - b]?
      else l[j]? := by
  unfold writeSeg
  rw [List.append_assoc, List.getElem?_append, List.length_take]
  have hmin : min b l.length = b := Nat.min_eq_left hb
  rw [hmin]
  by_cases h1 : j < b
  · rw [if_pos h1, if_pos h1, List.getElem?_take_of_lt h1]
  · rw [if_neg h1, if_neg h1, List.getElem?_append]
    by_cases h2 : j < b + seg.length
    · have h3 : j - b < seg.length := by omega
      rw [if_pos h3, if_pos h2]
    · have h3 : ¬ (j - b < seg.length) := by omega
      rw [if_neg h3, if_neg h2, List.getElem?_drop]
      congr 1
      omega

theorem getElem?_scatterSort_outside (f : List α → List α)
    (hf : ∀ s, (f s).length = s.length) (offs : List (Nat × Nat)) (src dst : List α)
    (j : Nat) (hv : ValidSegs offs src.length) (hd : dst.length = src.length)
    (hout : ∀ be ∈ offs, ¬ (be.1 ≤ j ∧ j < be.2)) :
    (scatterSort f offs src dst)[j]? = dst[j]? := by
  induction offs generalizing dst with
  | nil => rfl
  | cons be rest ih =>
    have hbe := hv be (List.mem_cons_self _ _)
    rw [scatterSort_cons,
      ih _ (fun q hq => hv q (List.mem_cons_of_mem _ hq))
        (by rw [length_applySeg f hf src be dst hbe.1 hbe.2 hd]; exact hd)
        (fun q hq => hout q (List.mem_cons_of_mem _ hq))]
    unfold applySeg
    rw [getElem?_writeSeg _ _ _ _ (by omega)]
    have hflen : (f (sliceList be.1 be.2 src)).length = be.2 - be.1 := by
      rw [hf, length_sliceList be.1 be.2 src hbe.1 hbe.2]
    have hj := hout be (List.mem_cons_self _ _)
    by_cases h1 : j < be.1
    · rw [if_pos h1]
    · rw [if_neg h1]
      have h2 : ¬ (j < be.1 + (f (sliceList be.1 be.2 src)).length) := by
        rw [hflen]
        omega
      rw [if_neg h2]

theorem getElem?_scatterSort_mem (f : List α → List α)
    (hf : ∀ s, (f s).length = s.length) (offs : List (Nat × Nat)) (src dst : List α)
    (b e j : Nat) (hv : ValidSegs offs src.length) (hd : dst.length = src.length)
    (hmem : (b, e) ∈ offs) (hdisj : offs.Pairwise disjSeg)
    (hj1 : b ≤ j) (hj2 : j < e) :
    (scatterSort f offs src dst)[j]? = (f (sliceList b e src))[j - b]? := by
  induction offs generalizing dst with
  | nil => cases hmem
  | cons p rest ih =>
    have hp := hv p (List.mem_cons_self _ _)
    rcases List.pairwise_cons.mp hdisj with ⟨hph, hrest⟩
    rw [scatterSort_cons]
    rcases List.mem_cons.mp hmem with heq | hmem2
    · have hout : ∀ q ∈ rest, ¬ (q.1 ≤ j ∧ j < q.2) := by
        intro q hq hin
        have hd2 := hph q hq
        rw [← heq] at hd2
        rcases hd2 with h | h
        · simp only at h
          omega
        · simp only at h
          omega
      rw [getElem?_scatterSort_outside f hf rest src _ j
        (fun q hq => hv q (List.mem_cons_of_mem _ hq))
        (by rw [length_applySeg f hf src p dst hp.1 hp.2 hd]; omega) hout]
      rw [← heq]
      unfold applySeg
      have hbe1 : b ≤ e := by
        rw [← heq] at hp
        exact hp.1
      have hbe2 : e ≤ src.length := by
        rw [← heq] at hp
        exact hp.2
      have hflen : (f (sliceList b e src)).length = e - b := by
        rw [hf, length_sliceList b e src hbe1 hbe2]
      rw [getElem?_writeSeg _ _ _ _ (by omega)]
      have h1 : ¬ (j < b) := by omega
      have h2 : j < b + (f (sliceList b e src)).length := by
        rw [hflen]
        omega
      rw [if_neg h1, if_pos h2]
    · exact ih _ (fun q hq => hv q (List.mem_cons_of_mem _ hq))
        (by rw [length_applySeg f hf src p dst hp.1 hp.2 hd]; exact hd) hmem2 hrest

theorem sliceList_getElem? (b e : Nat) (l : List α) (m : Nat) :
    (sliceList b e l)[m]? = if m < e - b then l[b + m]? else none := by
  unfold sliceList
  rw [List.getElem?_take]
  by_cases h : m < e - b
  · rw [if_pos h, if_pos h, List.getElem?_drop]
  · rw [if_neg h, if_neg h]

/-- The contents a dispatch leaves in one of its (pairwise disjoint)
segments: the `f`-sorted segment of the source. -/
theorem sliceList_scatterSort_mem (f : List α → List α)
    (hf : ∀ s, (f s).length = s.length) (offs : List (Nat × Nat)) (src dst : List α)
    (b e : Nat) (hv : ValidSegs offs src.length) (hd : dst.length = src.length)
    (hmem : (b, e) ∈ offs) (hdisj : offs.Pairwise disjSeg) :
    sliceList b e (scatterSort f offs src dst) = f (sliceList b e src) := by
  have hbe1 : b ≤ e := (hv _ hmem).1
  have hbe2 : e ≤ src.length := (hv _ hmem).2
  have hflen : (f (sliceList b e src)).length = e - b := by
    rw [hf, length_sliceList b e src hbe1 hbe2]
  apply List.ext_getElem?
  intro m
  rw [sliceList_getElem?]
  by_cases h : m < e - b
  · rw [if_pos h]
    rw [getElem?_scatterSort_mem f hf offs src dst b e (b + m) hv hd hmem hdisj
      (by omega) (by omega)]
    congr 1
    omega
  · rw [if_neg h]
    exact (List.getElem?_eq_none (by omega)).symm

/-- Splitting a dispatch by any predicate and running the two halves in
sequence (with extensionally equal per-segment sorts) produces the same
array as one uniform dispatch over all segments: classification can only
affect scheduling, never contents. -/
theorem scatterSort_split (fL fS : List α → List α)
    (hfL : ∀ s, (fL s).length = s.length) (hfS : ∀ s, (fS s).length = s.length)
    (hagree : ∀ s, fL s = fS s) (p : Nat × Nat → Bool)
    (offs : List (Nat × Nat)) (src dst : List α)
    (hv : ValidSegs offs src.length) (hd : dst.length = src.length)
    (hdisj : offs.Pairwise disjSeg) :
    scatterSort fS (offs.filter (fun be => ! p be)) src
        (scatterSort fL (offs.filter p) src dst)
      = scatterSort fL offs src dst := by
  have hvP : ValidSegs (offs.filter p) src.length :=
    fun q hq => hv q (List.mem_of_mem_filter hq)
  have hvQ : ValidSegs (offs.filter (fun be => ! p be)) src.length :=
    fun q hq => hv q (List.mem_of_mem_filter hq)
  have hdP : List.Pairwise disjSeg (offs.filter p) :=
    List.Pairwise.sublist (List.filter_sublist offs) hdisj
  have hdQ : List.Pairwise disjSeg (offs.filter (fun be => ! p be)) :=
    List.Pairwise.sublist (List.filter_sublist offs) hdisj
  have hlenInner : (scatterSort fL (offs.filter p) src dst).length = dst.length :=
    length_scatterSort fL hfL _ src dst hvP hd
  apply List.ext_getElem?
  intro j
  by_cases hex : ∃ be ∈ offs, be.1 ≤ j ∧ j < be.2
  · rcases hex with ⟨be, hbe, hj1, hj2⟩
    obtain ⟨b, e⟩ := be
    by_cases hpbe : p (b, e) = true
    · have hmemP : (b, e) ∈ offs.filter p := List.mem_filter.mpr ⟨hbe, hpbe⟩
      have houtQ : ∀ q ∈ offs.filter (fun be => ! p be), ¬ (q.1 ≤ j ∧ j < q.2) := by
        intro q hq hin
        have hqmem := List.mem_of_mem_filter hq
        have hqp : p q = false := by
          have h2 := (List.mem_filter.mp hq).2
          revert h2
          cases p q <;> simp
        have hne : q ≠ (b, e) := by
          intro h
          rw [h, hpbe] at hqp
          cases hqp
        have hdisj2 : disjSeg q (b, e) :=
          List.Pairwise.forall disjSeg_symm hdisj hqmem hbe hne
        rcases hdisj2 with h | h
        · simp only at h
          omega
        · simp only at h
          omega
      rw [getElem?_scatterSort_outside fS hfS _ src _ j hvQ
        (by rw [hlenInner]; exact hd) houtQ]
      rw [getElem?_scatterSort_mem fL hfL (offs.filter p) src dst b e j hvP hd
        hmemP hdP hj1 hj2]
      rw [getElem?_scatterSort_mem fL hfL offs src dst b e j hv hd hbe hdisj hj1 hj2]
    · have hpq : p (b, e) = false := by
        revert hpbe
        cases p (b, e) <;> simp
      have hmemQ : (b, e) ∈ offs.filter (fun be => ! p be) :=
        List.mem_filter.mpr ⟨hbe, by rw [hpq]; rfl⟩
      rw [getElem?_scatterSort_mem fS hfS _ src _ b e j hvQ
        (by rw [hlenInner]; exact hd) hmemQ hdQ hj1 hj2]
      rw [getElem?_scatterSort_mem fL hfL offs src dst b e j hv hd hbe hdisj hj1 hj2]
      rw [hagree (sliceList b e src)]
  · have hout : ∀ be ∈ offs, ¬ (be.1 ≤ j ∧ j < be.2) := by
      intro be hbe hin
      exact hex ⟨be, hbe, hin⟩
    rw [getElem?_scatterSort_outside fS hfS _ src _ j hvQ
      (by rw [hlenInner]; exact hd)
      (fun q hq => hout q (List.mem_of_mem_filter hq))]
    rw [getElem?_scatterSort_outside fL hfL (offs.filter p) src dst j hvP hd
      (fun q hq => hout q (List.mem_of_mem_filter hq))]
    rw [getElem?_scatterSort_outside fL hfL offs src dst j hv hd hout]

end Segments

/-! ### The host-side orchestration -/

section Impl

variable {α : Type}

/-- Outcomes of the external device operations one call performs, as
`hipError_t` codes (`0` is `hipSuccess`).  The partition primitive and the
HIP runtime are external collaborators, so their outcomes are inputs of the
model. -/
structure DeviceOracle where
  partition_sizing_status : Nat
  partition_storage_size : Nat
  partition_run_status : Nat
  readback_copy_status : Nat
  readback_sync_status : Nat
  sync_status : Nat
  kernel_large_status : Nat
  kernel_small_status : Nat
  kernel_uniform_status : Nat

/-- Every device operation succeeds. -/
def DeviceOracle.allOk (o : DeviceOracle) : Prop :=
  o.partition_sizing_status = 0 ∧ o.partition_run_status = 0 ∧
  o.readback_copy_status = 0 ∧ o.readback_sync_status = 0 ∧
  o.sync_status = 0 ∧ o.kernel_large_status = 0 ∧
  o.kernel_small_status = 0 ∧ o.kernel_uniform_status = 0

/-- Arguments of one sort call: sizes, segment offsets, bit range, the input
buffer contents and the previous contents of the location where the result
will land. -/
structure SortCall (α : Type) where
  size : Nat
  segments : Nat
  begin_offsets : List Nat
  end_offsets : List Nat
  begin_bit : Nat
  end_bit : Nat
  data : List α
  out_prev : List α

/-- What one call produced: the returned status, the storage size written by
a sizing call, the contents of the result location, the result-location
flag, how many kernels were dispatched and the diagnostic output. -/
structure ImplResult (α : Type) where
  status : Nat
  storage_size : Option Nat
  out : List α
  is_result_in_output : Bool
  kernels : Nat
  log : List Nat
deriving DecidableEq

/-- The segment range of index `i`: `(begin_offsets[i], end_offsets[i])`. -/
def offsPair (c : SortCall α) (i : Nat) : Nat × Nat :=
  (c.begin_offsets.getD i 0, c.end_offsets.getD i 0)

/-- `end_offsets[segment_index] - begin_offsets[segment_index]`
(source line 229, `unsigned int` subtraction). -/
def segment_length (c : SortCall α) (i : Nat) : Nat :=
  u32sub (c.end_offsets.getD i 0) (c.begin_offsets.getD i 0)

/-- The classification predicate of `large_segment_selector`
(source lines 227-231): `segment_length > max_small_segment_length`. -/
def large_segment_selector (cfg : Config) (c : SortCall α) (i : Nat) : Bool :=
  decide (max_small_segment_length cfg < segment_length c i)

/-- Modelled from the spec: the stable partition primitive
(`device_partition.hpp` is not under `src/`) applied to the segment indices
`[0, n)`: selected indices first, both parts in original relative order,
together with the count of selected indices. -/
def stablePartition (pred : Nat → Bool) (n : Nat) : List Nat × Nat :=
  ((List.range n).filter pred ++ (List.range n).filter (fun i => ! pred i),
    ((List.range n).filter pred).length)

/-- The large-segment indices, in original order (the front part of the
partition output). -/
def largeIndices (cfg : Config) (c : SortCall α) : List Nat :=
  (List.range c.segments).filter (large_segment_selector cfg c)

/-- The small-segment indices, in original order (the back part of the
partition output). -/
def smallIndices (cfg : Config) (c : SortCall α) : List Nat :=
  (List.range c.segments).filter (fun i => ! large_segment_selector cfg c i)

/-- The widths of the scheduled digit passes, long passes first. -/
def passSchedule (cfg : Config) (long_iterations short_iterations : Nat) : List Nat :=
  List.replicate long_iterations cfg.long_radix_bits
    ++ List.replicate short_iterations cfg.short_radix_bits

/-- Modelled from the spec (§4.4): the large-segment (and uniform) strategy
sorts one segment by running the full scheduled radix pass sequence over
`[begin_bit, end_bit)`; each pass's digit width is clamped at `end_bit`, so
no pass reads bits outside the selected range. -/
def largeStrategy (cfg : Config) (descending : Bool) (kf : α → Nat)
    (long_iterations short_iterations begin_bit end_bit : Nat) : List α → List α :=
  runPasses descending kf end_bit
    (passSchedule cfg long_iterations short_iterations) begin_bit

/-- Modelled from the spec (§4.5): the small-segment strategy sorts its whole
bounded segment in a single step — a complete stable sort by the selected
bits. -/
def smallStrategy (descending : Bool) (kf : α → Nat) (begin_bit end_bit : Nat) :
    List α → List α :=
  specSort descending kf begin_bit end_bit

/-- The classified dispatch (source lines 313-383): the large segments by the
iterative strategy, then the small segments by the single-shot strategy, each
kernel reading its segments from the input. -/
def partitionedDispatch (cfg : Config) (descending : Bool) (kf : α → Nat)
    (c : SortCall α) (s : Sched) : List α :=
  scatterSort (smallStrategy descending kf c.begin_bit c.end_bit)
    ((smallIndices cfg c).map (offsPair c)) c.data
    (scatterSort (largeStrategy cfg descending kf s.long_iterations
        s.short_iterations c.begin_bit c.end_bit)
      ((largeIndices cfg c).map (offsPair c)) c.data c.out_prev)

/-- The uniform fallback dispatch (source lines 385-399): every segment by
the iterative strategy. -/
def uniformDispatch (cfg : Config) (descending : Bool) (kf : α → Nat)
    (c : SortCall α) (s : Sched) : List α :=
  scatterSort (largeStrategy cfg descending kf s.long_iterations
      s.short_iterations c.begin_bit c.end_bit)
    ((List.range c.segments).map (offsPair c)) c.data c.out_prev

/-- Temporary storage sizing (source lines 246-275): aligned key and value
scratch (only without a caller double buffer), plus, when classification will
run, the aligned segment-index scratch, the aligned counter and the external
partition primitive's requirement; a zero total becomes the sentinel `4`. -/
def queryStorageSize (cfg : Config) (with_values with_double_buffer : Bool)
    (key_size value_size : Nat) (c : SortCall α) (partition_storage_size : Nat) : Nat :=
  let keys_bytes := align_size (c.size * key_size)
  let values_bytes := if with_values then align_size (c.size * value_size) else 0
  let segment_indices_bytes := align_size (c.segments * 4)
  let large_segment_count_bytes := align_size 4
  let base := if with_double_buffer then 0 else keys_bytes + values_bytes
  let total :=
    if do_partitioning cfg c.segments then
      base + segment_indices_bytes + large_segment_count_bytes + partition_storage_size
    else base
  if total = 0 then 4 else total

/-- The error handling of `ROCPRIM_DETAIL_HIP_SYNC_AND_RETURN_ON_ERROR`
(source lines 158-171): the launch error is checked first; under
`debug_synchronous` a stream synchronization follows. -/
def launch_status (kernel_status : Nat) (debug_synchronous : Bool) (sync_status : Nat) : Nat :=
  if kernel_status ≠ 0 then kernel_status
  else if debug_synchronous ∧ sync_status ≠ 0 then sync_status
  else 0

/-- `detail::segmented_radix_sort_impl` (source lines 183-401).  The flag
computation, two-phase sizing protocol, zero-segment early return, debug
path, classification gate and dispatch sequencing are translated from the
source; the effect of a kernel dispatch on the arrays is the spec-modelled
per-segment sort of the matching strategy. -/
def segmented_radix_sort_impl (cfg : Config) (descending : Bool) (kf : α → Nat)
    (oracle : DeviceOracle) (with_values : Bool) (key_size value_size : Nat)
    (temporary_storage_null with_double_buffer : Bool)
    (c : SortCall α) (debug_synchronous : Bool) : ImplResult α :=
  let s := scheduler cfg with_double_buffer c.begin_bit c.end_bit
  let do_part := do_partitioning cfg c.segments
  if temporary_storage_null then
    if do_part = true ∧ oracle.partition_sizing_status ≠ 0 then
      ⟨oracle.partition_sizing_status, none, c.out_prev, s.is_result_in_output, 0, []⟩
    else
      ⟨0, some (queryStorageSize cfg with_values with_double_buffer key_size value_size c
          oracle.partition_storage_size), c.out_prev, s.is_result_in_output, 0, []⟩
  else if c.segments = 0 then
    ⟨0, none, c.out_prev, s.is_result_in_output, 0, []⟩
  else
    let log0 : List Nat :=
      if debug_synchronous then
        [c.begin_bit, c.end_bit, s.bits, c.segments, s.iterations,
          s.long_iterations, s.short_iterations]
      else []
    if debug_synchronous = true ∧ oracle.sync_status ≠ 0 then
      ⟨oracle.sync_status, none, c.out_prev, s.is_result_in_output, 0, log0⟩
    else if do_part = true then
      if oracle.partition_run_status ≠ 0 then
        ⟨oracle.partition_run_status, none, c.out_prev, s.is_result_in_output, 0, log0⟩
      else if oracle.readback_copy_status ≠ 0 then
        ⟨oracle.readback_copy_status, none, c.out_prev, s.is_result_in_output, 0, log0⟩
      else if oracle.readback_sync_status ≠ 0 then
        ⟨oracle.readback_sync_status, none, c.out_prev, s.is_result_in_output, 0, log0⟩
      else
        let large_count := (largeIndices cfg c).length
        let out1 :=
          if large_count ≠ 0 ∧ oracle.kernel_large_status = 0 then
            scatterSort (largeStrategy cfg descending kf s.long_iterations
                s.short_iterations c.begin_bit c.end_bit)
              ((largeIndices cfg c).map (offsPair c)) c.data c.out_prev
          else c.out_prev
        let k1 := if large_count ≠ 0 then 1 else 0
        let e1 :=
          if large_count ≠ 0 then
            launch_status oracle.kernel_large_status debug_synchronous oracle.sync_status
          else 0
        if e1 ≠ 0 then
          ⟨e1, none, out1, s.is_result_in_output, k1, log0⟩
        else
          let small_count := c.segments - large_count
          let out2 :=
            if small_count ≠ 0 ∧ oracle.kernel_small_status = 0 then
              scatterSort (smallStrategy descending kf c.begin_bit c.end_bit)
                ((smallIndices cfg c).map (offsPair c)) c.data out1
            else out1
          let k2 := if small_count ≠ 0 then 1 else 0
          let e2 :=
            if small_count ≠ 0 then
              launch_status oracle.kernel_small_status debug_synchronous oracle.sync_status
            else 0
          ⟨e2, none, out2, s.is_result_in_output, k1 + k2, log0⟩
    else
      let out1 :=
        if oracle.kernel_uniform_status = 0 then uniformDispatch cfg descending kf c s
        else c.out_prev
      ⟨launch_status oracle.kernel_uniform_status debug_synchronous oracle.sync_status,
        none, out1, s.is_result_in_output, 1, log0⟩

/-- The separate-output-buffer calling convention (source lines 503-527,
625-649, 765-790, 902-927): `keys_tmp` is a null pointer, so
`with_double_buffer` is false and scratch comes from temporary storage. -/
def segmented_radix_sort_call (cfg : Config) (descending : Bool) (kf : α → Nat)
    (oracle : DeviceOracle) (with_values : Bool) (key_size value_size : Nat)
    (temporary_storage_null : Bool) (c : SortCall α) (debug_synchronous : Bool) :
    ImplResult α :=
  segmented_radix_sort_impl cfg descending kf oracle with_values key_size value_size
    temporary_storage_null false c debug_synchronous

/-- `rocprim::double_buffer`, by buffer contents. -/
structure DoubleBuffer (α : Type) where
  current : List α
  alternate : List α
deriving DecidableEq

/-- `double_buffer::swap`. -/
def DoubleBuffer.swap (b : DoubleBuffer α) : DoubleBuffer α := ⟨b.alternate, b.current⟩

/-- Modelled from the spec (§4.4, §4.5 output-location rule): the kernels
deposit the final result in the alternate buffer exactly when
`is_result_in_output` holds, else in the current buffer. -/
def writeBack (keys : DoubleBuffer α) (to_alternate : Bool) (o : List α) : DoubleBuffer α :=
  if to_alternate then ⟨keys.current, o⟩ else ⟨o, keys.alternate⟩

/-- The double-buffer calling convention (source lines 1027-1055, 1155-1183,
1297-1326, 1434-1463): `keys_tmp := keys.current()`,
`keys_output := keys.alternate()`, and the handle is swapped after the call
exactly when `temporary_storage != nullptr && is_result_in_output`. -/
def segmented_radix_sort_double_buffer (cfg : Config) (descending : Bool) (kf : α → Nat)
    (oracle : DeviceOracle) (with_values : Bool) (key_size value_size : Nat)
    (temporary_storage_null : Bool) (keys : DoubleBuffer α)
    (size segments : Nat) (begin_offsets end_offsets : List Nat)
    (begin_bit end_bit : Nat) (debug_synchronous : Bool) :
    ImplResult α × DoubleBuffer α :=
  let s := scheduler cfg true begin_bit end_bit
  let prev := if s.is_result_in_output then keys.alternate else keys.current
  let r := segmented_radix_sort_impl cfg descending kf oracle with_values key_size
    value_size temporary_storage_null true
    ⟨size, segments, begin_offsets, end_offsets, begin_bit, end_bit, keys.current, prev⟩
    debug_synchronous
  let keys1 := writeBack keys s.is_result_in_output r.out
  let keys2 :=
    if temporary_storage_null = false ∧ r.is_result_in_output = true then keys1.swap
    else keys1
  (r, keys2)

end Impl

/-! ### Properties of the strategies and dispatches -/

section Properties

variable {α : Type}

theorem sum_replicate_nat (n a : Nat) : (List.replicate n a).sum = n * a := by
  induction n with
  | zero => simp
  | succ m ih =>
    rw [List.replicate_succ, List.sum_cons, ih]
    ring

theorem passSchedule_sum (cfg : Config) (l s : Nat) :
    (passSchedule cfg l s).sum = l * cfg.long_radix_bits + s * cfg.short_radix_bits := by
  unfold passSchedule
  rw [List.sum_append, sum_replicate_nat, sum_replicate_nat]

/-- When the scheduled pass widths cover at least the bit range, the
iterative strategy (whose passes clamp at `end_bit`) is the stable sort by
the selected bits. -/
theorem largeStrategy_eq_specSort (cfg : Config) (d : Bool) (kf : α → Nat)
    (li si bb eb : Nat)
    (hcov : eb - bb ≤ li * cfg.long_radix_bits + si * cfg.short_radix_bits)
    (l : List α) :
    largeStrategy cfg d kf li si bb eb l = specSort d kf bb eb l := by
  unfold largeStrategy
  rw [runPasses_eq_sortK, specSort_eq_sortK]
  apply sortK_key_congr
  intro x
  have hs : (passSchedule cfg li si).sum
      = li * cfg.long_radix_bits + si * cfg.short_radix_bits := passSchedule_sum cfg li si
  have hmin : min (passSchedule cfg li si).sum (eb - bb) = eb - bb := by omega
  rw [hmin]

theorem length_largeStrategy (cfg : Config) (d : Bool) (kf : α → Nat) (li si bb eb : Nat)
    (l : List α) : (largeStrategy cfg d kf li si bb eb l).length = l.length := by
  unfold largeStrategy
  rw [runPasses_eq_sortK]
  exact length_sortK _ _

/-- Arithmetic of the §4.1 formulas: however the `min` clamps, the scheduled
passes total at least `bits` of digit width. -/
theorem schedule_covers_arith (L S bits iter short : Nat) (hL : 0 < L) (hSL : S ≤ L)
    (hiter : iter = ceiling_div bits L)
    (hshort : short = if L - S ≠ 0 then
        min iter ((L * iter - bits) / (L - S)) else 0) :
    bits ≤ (iter - short) * L + short * S := by
  have hcl0 : bits ≤ ceiling_div bits L * L := ceiling_div_le bits L hL
  have hcl : bits ≤ iter * L := by rw [hiter]; exact hcl0
  by_cases hd : L - S = 0
  · have hshort0 : short = 0 := by
      rw [hshort, if_neg (by omega)]
    rw [hshort0]
    simpa using hcl
  · have hle1 : short ≤ (L * iter - bits) / (L - S) := by
      rw [hshort, if_pos hd]
      exact Nat.min_le_right _ _
    have hle2 : short ≤ iter := by
      rw [hshort, if_pos hd]
      exact Nat.min_le_left _ _
    have hdiv : (L * iter - bits) / (L - S) * (L - S) ≤ L * iter - bits :=
      Nat.div_mul_le_self _ _
    have hmul : short * (L - S) ≤ (L * iter - bits) / (L - S) * (L - S) :=
      Nat.mul_le_mul_right _ hle1
    have e1 : (iter - short) * L = iter * L - short * L := Nat.sub_mul _ _ _
    have e2 : short * (L - S) = short * L - short * S := by
      rw [Nat.mul_comm short (L - S), Nat.sub_mul, Nat.mul_comm L short,
        Nat.mul_comm S short]
    have e3 : short * L ≤ iter * L := Nat.mul_le_mul_right _ hle2
    have e4 : short * S ≤ short * L := Nat.mul_le_mul_left _ hSL
    have e5 : L * iter = iter * L := Nat.mul_comm _ _
    omega

/-- Whatever the bit range, the real scheduler's passes cover at least the
requested bits (with sane widths the unsigned arithmetic never wraps). -/
theorem scheduler_covers (cfg : Config) (wdb : Bool) (bb eb : Nat)
    (hbe : bb ≤ eb) (heb : eb ≤ 64) (hL : 0 < cfg.long_radix_bits)
    (hL64 : cfg.long_radix_bits ≤ 64)
    (hSL : cfg.short_radix_bits ≤ cfg.long_radix_bits) :
    eb - bb ≤ (scheduler cfg wdb bb eb).long_iterations * cfg.long_radix_bits
      + (scheduler cfg wdb bb eb).short_iterations * cfg.short_radix_bits := by
  obtain ⟨hb, hi, hs, hl⟩ := scheduler_eq cfg wdb bb eb hbe heb hL hL64 hSL
  rw [hl, hi]
  exact schedule_covers_arith cfg.long_radix_bits cfg.short_radix_bits (eb - bb)
    (ceiling_div (eb - bb) cfg.long_radix_bits)
    ((scheduler cfg wdb bb eb).short_iterations) hL hSL rfl hs

theorem length_smallStrategy (d : Bool) (kf : α → Nat) (bb eb : Nat) (l : List α) :
    (smallStrategy d kf bb eb l).length = l.length := by
  unfold smallStrategy
  rw [specSort_eq_sortK]
  exact length_sortK _ _

/-- The classification predicate depends only on the offset pair. -/
def pairSelector (cfg : Config) (be : Nat × Nat) : Bool :=
  decide (max_small_segment_length cfg < u32sub be.2 be.1)

theorem large_selector_pair (cfg : Config) (c : SortCall α) (i : Nat) :
    large_segment_selector cfg c i = pairSelector cfg (offsPair c i) := rfl

theorem largeIndices_map_offs (cfg : Config) (c : SortCall α) :
    (largeIndices cfg c).map (offsPair c)
      = ((List.range c.segments).map (offsPair c)).filter (pairSelector cfg) := by
  unfold largeIndices
  rw [List.filter_map]
  rfl

theorem smallIndices_map_offs (cfg : Config) (c : SortCall α) :
    (smallIndices cfg c).map (offsPair c)
      = ((List.range c.segments).map (offsPair c)).filter
          (fun be => ! pairSelector cfg be) := by
  unfold smallIndices
  rw [List.filter_map]
  rfl

theorem length_filter_add_not (p : α → Bool) (l : List α) :
    (l.filter p).length + (l.filter (fun x => ! p x)).length = l.length := by
  induction l with
  | nil => rfl
  | cons a t ih =>
    cases hpa : p a <;> simp [List.filter_cons, hpa] <;> omega

/-- The classified dispatch and the uniform dispatch leave identical
contents: the split into large and small segments regroups the same disjoint
writes, and the two strategies sort identically. -/
theorem partitionedDispatch_eq_uniformDispatch (cfg : Config) (d : Bool) (kf : α → Nat)
    (c : SortCall α) (s : Sched)
    (hcov : c.end_bit - c.begin_bit ≤ s.long_iterations * cfg.long_radix_bits
      + s.short_iterations * cfg.short_radix_bits)
    (hvalid : ValidSegs ((List.range c.segments).map (offsPair c)) c.data.length)
    (hdisj : ((List.range c.segments).map (offsPair c)).Pairwise disjSeg)
    (hlen : c.out_prev.length = c.data.length) :
    partitionedDispatch cfg d kf c s = uniformDispatch cfg d kf c s := by
  unfold partitionedDispatch uniformDispatch
  rw [largeIndices_map_offs, smallIndices_map_offs]
  exact scatterSort_split
    (largeStrategy cfg d kf s.long_iterations s.short_iterations c.begin_bit c.end_bit)
    (smallStrategy d kf c.begin_bit c.end_bit)
    (length_largeStrategy cfg d kf _ _ _ _)
    (length_smallStrategy d kf _ _)
    (fun l => largeStrategy_eq_specSort cfg d kf _ _ _ _ hcov l)
    (pairSelector cfg) _ c.data c.out_prev hvalid hlen hdisj

/-- The contents the uniform dispatch leaves in segment `i`. -/
theorem uniformDispatch_slice (cfg : Config) (d : Bool) (kf : α → Nat)
    (c : SortCall α) (s : Sched) (i : Nat) (hi : i < c.segments)
    (hcov : c.end_bit - c.begin_bit ≤ s.long_iterations * cfg.long_radix_bits
      + s.short_iterations * cfg.short_radix_bits)
    (hvalid : ValidSegs ((List.range c.segments).map (offsPair c)) c.data.length)
    (hdisj : ((List.range c.segments).map (offsPair c)).Pairwise disjSeg)
    (hlen : c.out_prev.length = c.data.length) :
    sliceList (c.begin_offsets.getD i 0) (c.end_offsets.getD i 0)
        (uniformDispatch cfg d kf c s)
      = specSort d kf c.begin_bit c.end_bit
          (sliceList (c.begin_offsets.getD i 0) (c.end_offsets.getD i 0) c.data) := by
  have hmem : (c.begin_offsets.getD i 0, c.end_offsets.getD i 0)
      ∈ (List.range c.segments).map (offsPair c) :=
    List.mem_map.mpr ⟨i, List.mem_range.mpr hi, rfl⟩
  unfold uniformDispatch
  rw [sliceList_scatterSort_mem _ (length_largeStrategy cfg d kf _ _ _ _) _ c.data
    c.out_prev _ _ hvalid hlen hmem hdisj]
  exact largeStrategy_eq_specSort cfg d kf _ _ _ _ hcov _

/-- The pass-count fields of the scheduler do not depend on the
double-buffer flag (only the parity flags do). -/
theorem scheduler_long_indep (cfg : Config) (w w2 : Bool) (bb eb : Nat) :
    (scheduler cfg w bb eb).long_iterations = (scheduler cfg w2 bb eb).long_iterations := rfl

theorem scheduler_short_indep (cfg : Config) (w w2 : Bool) (bb eb : Nat) :
    (scheduler cfg w bb eb).short_iterations = (scheduler cfg w2 bb eb).short_iterations := rfl

end Properties

/-! ### Views of the orchestration model -/

section ImplLemmas

variable {α : Type}

theorem launch_status_sync_ok (k : Nat) (dbg : Bool) : launch_status k dbg 0 = k := by
  unfold launch_status
  by_cases h : k = 0
  · subst h
    simp
  · simp [h]

theorem large_small_counts (cfg : Config) (c : SortCall α) :
    (largeIndices cfg c).length + (smallIndices cfg c).length = c.segments := by
  unfold largeIndices smallIndices
  rw [length_filter_add_not, List.length_range]

/-- Every branch of the implementation reports the parity flag computed by
the scheduler. -/
theorem impl_is_result_in_output (cfg : Config) (d : Bool) (kf : α → Nat)
    (o : DeviceOracle) (wv : Bool) (ks vs : Nat) (tnull wdb : Bool)
    (c : SortCall α) (dbg : Bool) :
    (segmented_radix_sort_impl cfg d kf o wv ks vs tnull wdb c dbg).is_result_in_output
      = (scheduler cfg wdb c.begin_bit c.end_bit).is_result_in_output := by
  simp only [segmented_radix_sort_impl, apply_ite ImplResult.is_result_in_output, ite_self]

/-- On an error-free device, an execute-phase call with segments succeeds and
leaves in the result location exactly the classified dispatch (when
classification is gated on) or the uniform dispatch. -/
theorem impl_out_allOk (cfg : Config) (d : Bool) (kf : α → Nat) (o : DeviceOracle)
    (wv : Bool) (ks vs : Nat) (wdb : Bool) (c : SortCall α) (dbg : Bool)
    (hO : o.allOk) (hseg : c.segments ≠ 0) :
    (segmented_radix_sort_impl cfg d kf o wv ks vs false wdb c dbg).status = 0 ∧
    (segmented_radix_sort_impl cfg d kf o wv ks vs false wdb c dbg).out
      = (if do_partitioning cfg c.segments = true then
          partitionedDispatch cfg d kf c (scheduler cfg wdb c.begin_bit c.end_bit)
        else uniformDispatch cfg d kf c (scheduler cfg wdb c.begin_bit c.end_bit)) := by
  obtain ⟨h1, h2, h3, h4, h5, h6, h7, h8⟩ := hO
  simp only [segmented_radix_sort_impl, h1, h2, h3, h4, h5, h6, h7, h8,
    launch_status_sync_ok, ne_eq, not_true_eq_false, and_false, false_and, and_true,
    not_false_eq_true, if_false, if_true, ite_self, Bool.false_eq_true, hseg]
  refine ?_
  have hc := large_small_counts cfg c
  by_cases hdp : do_partitioning cfg c.segments = true
  · rw [if_pos hdp, if_pos hdp]
    refine ⟨rfl, ?_⟩
    by_cases hlc : (largeIndices cfg c).length = 0
    · have hlarge : largeIndices cfg c = [] := List.length_eq_zero.mp hlc
      have hsc : ¬ (c.segments - (largeIndices cfg c).length = 0) := by omega
      simp only [hlc, hlarge, hsc, List.map_nil, scatterSort_nil, List.length_nil,
        not_true_eq_false, not_false_eq_true, if_true, if_false, partitionedDispatch]
      rw [if_pos (by omega : ¬ c.segments - 0 = 0)]
    · by_cases hsc : c.segments - (largeIndices cfg c).length = 0
      · have hsmall : smallIndices cfg c = [] := by
          apply List.length_eq_zero.mp
          omega
        simp only [hsmall, hsc, hlc, List.map_nil, scatterSort_nil,
          not_true_eq_false, not_false_eq_true, if_true, if_false, partitionedDispatch]
      · simp only [hsc, hlc, not_false_eq_true, if_true, partitionedDispatch]
  · rw [if_neg hdp, if_neg hdp]
    exact ⟨rfl, rfl⟩

end ImplLemmas

/-! ### The claims -/

section Claims

variable {α : Type}

/-- A device oracle on which every operation succeeds. -/
def oracleOk : DeviceOracle := ⟨0, 0, 0, 0, 0, 0, 0, 0, 0⟩

theorem oracleOk_allOk : oracleOk.allOk := by
  refine ⟨rfl, rfl, rfl, rfl, rfl, rfl, rfl, rfl⟩

theorem ceiling_div_pos (a b : Nat) (ha : 0 < a) (hb : 0 < b) : 0 < ceiling_div a b := by
  have h := ceiling_div_le a b hb
  by_cases h0 : ceiling_div a b = 0
  · rw [h0] at h
    omega
  · omega

/-- A configuration with long digit width 7 and short digit width 6. -/
def cfg76 : Config := ⟨7, 6, 256, 32, 1, 3000, true⟩

/-- Claim C2, counterexample: with long width 7, short width 6 and the bit
range `[0, 5)` (as in the documented `begin_bit = 0, end_bit = 5` examples),
the scheduler clamps the shortened-pass count and the claimed bit-budget
identity `long_iterations*long_width + short_iterations*short_width = bits`
fails: it yields 0 long and 1 short pass covering 6 bits, not 5. -/
theorem claim_C2_counterexample :
    ¬ ((scheduler cfg76 false 0 5).long_iterations * cfg76.long_radix_bits
      + (scheduler cfg76 false 0 5).short_iterations * cfg76.short_radix_bits
      = 5 - 0) := by decide

/-- Claim C2 (amended): for every bit range and configuration with
`0 < short_width ≤ long_width ≤ 64`, the scheduler computes
`iterations = ceil(bits / long_width)`,
`short_iterations = min(iterations, (long*iterations - bits) / (long - short))`
when the widths differ (0 when they are equal), and
`long_iterations = iterations - short_iterations`; the bit-budget identity
`long_iterations*long_width + short_iterations*short_width = bits` holds
whenever the budget is attainable, i.e. when `short_width*iterations ≤ bits`
and `long_width - short_width` divides `long_width*iterations - bits`. -/
theorem claim_C2 (cfg : Config) (wdb : Bool) (bb eb : Nat)
    (hbe : bb < eb) (heb : eb ≤ 64)
    (hS : 0 < cfg.short_radix_bits) (hSL : cfg.short_radix_bits ≤ cfg.long_radix_bits)
    (hL64 : cfg.long_radix_bits ≤ 64)
    (hbudget : cfg.short_radix_bits * ceiling_div (eb - bb) cfg.long_radix_bits ≤ eb - bb)
    (hdvd : (cfg.long_radix_bits - cfg.short_radix_bits)
      ∣ (cfg.long_radix_bits * ceiling_div (eb - bb) cfg.long_radix_bits - (eb - bb))) :
    (scheduler cfg wdb bb eb).iterations = ceiling_div (eb - bb) cfg.long_radix_bits ∧
    (scheduler cfg wdb bb eb).short_iterations =
      (if cfg.long_radix_bits - cfg.short_radix_bits ≠ 0 then
        min (scheduler cfg wdb bb eb).iterations
          ((cfg.long_radix_bits * (scheduler cfg wdb bb eb).iterations - (eb - bb)) /
            (cfg.long_radix_bits - cfg.short_radix_bits))
      else 0) ∧
    (scheduler cfg wdb bb eb).long_iterations =
      (scheduler cfg wdb bb eb).iterations - (scheduler cfg wdb bb eb).short_iterations ∧
    (scheduler cfg wdb bb eb).long_iterations * cfg.long_radix_bits
      + (scheduler cfg wdb bb eb).short_iterations * cfg.short_radix_bits = eb - bb := by
  have hL : 0 < cfg.long_radix_bits := by omega
  obtain ⟨e0, e1, e2, e3⟩ := scheduler_eq cfg wdb bb eb (by omega) heb hL (by omega) hSL
  refine ⟨e1, by rw [e1, e2], e3, ?_⟩
  rw [e3, e2, e1]
  set L := cfg.long_radix_bits with hLdef
  set S := cfg.short_radix_bits with hSdef
  set B := eb - bb with hBdef
  set it := ceiling_div B L with hitdef
  have hBle : B ≤ it * L := ceiling_div_le B L hL
  have hcomm : it * L = L * it := Nat.mul_comm _ _
  by_cases hD : L - S = 0
  · have hr0 : L * it - B = 0 := by
      rcases hdvd with ⟨k, hk⟩
      rw [hD] at hk
      simpa using hk
    simp only [hD, ne_eq, not_true_eq_false, if_false]
    have : it - 0 = it := by omega
    rw [this]
    omega
  · simp only [hD, ne_eq, not_false_eq_true, if_true]
    set D := L - S with hDdef
    set r := L * it - B with hrdef
    set q := r / D with hqdef
    have hDpos : 0 < D := by omega
    have hqD : q * D = r := Nat.div_mul_cancel hdvd
    have hrle : r ≤ D * it := by
      have h1 : S * it ≤ B := hbudget
      have h2 : D * it + S * it = L * it := by
        have : D + S = L := by omega
        calc D * it + S * it = (D + S) * it := by ring
          _ = L * it := by rw [this]
      omega
    have hqit : q ≤ it := by
      have h1 : r / D ≤ (D * it) / D := Nat.div_le_div_right hrle
      have h2 : (D * it) / D = it := by
        rw [Nat.mul_comm, Nat.mul_div_cancel _ hDpos]
      omega
    have hmin : min it q = q := Nat.min_eq_right hqit
    rw [hmin]
    have hsplit : q * L = q * S + q * D := by
      have hLSD : L = S + D := by omega
      calc q * L = q * (S + D) := by rw [← hLSD]
        _ = q * S + q * D := by ring
    have hsub : (it - q) * L = it * L - q * L := Nat.sub_mul it q L
    have hqL : q * L ≤ it * L := Nat.mul_le_mul_right L hqit
    omega

/-- A configuration with long digit width 4 and short digit width 3
(bit budget 6 is attainable as two short passes). -/
def cfg43 : Config := ⟨4, 3, 256, 32, 1, 3000, true⟩

/-- Witness for claim C2 at a concrete attainable budget. -/
theorem claim_C2_witness :
    ((0 : Nat) < 6 ∧ (6 : Nat) ≤ 64 ∧ 0 < cfg43.short_radix_bits ∧
      cfg43.short_radix_bits ≤ cfg43.long_radix_bits ∧ cfg43.long_radix_bits ≤ 64 ∧
      cfg43.short_radix_bits * ceiling_div (6 - 0) cfg43.long_radix_bits ≤ 6 - 0 ∧
      (cfg43.long_radix_bits - cfg43.short_radix_bits)
        ∣ (cfg43.long_radix_bits * ceiling_div (6 - 0) cfg43.long_radix_bits - (6 - 0))) ∧
    (scheduler cfg43 false 0 6).long_iterations * cfg43.long_radix_bits
      + (scheduler cfg43 false 0 6).short_iterations * cfg43.short_radix_bits = 6 - 0 :=
  ⟨by decide,
    (claim_C2 cfg43 false 0 6 (by decide) (by decide) (by decide) (by decide) (by decide)
      (by decide) (by decide)).2.2.2⟩

theorem scheduler_to_output_eq (cfg : Config) (wdb : Bool) (bb eb : Nat)
    (hbe : bb < eb) (heb : eb ≤ 64) (hL : 0 < cfg.long_radix_bits) :
    (scheduler cfg wdb bb eb).to_output
      = (wdb || decide (((scheduler cfg wdb bb eb).iterations - 1) % 2 = 0)) := by
  have hbits : u32sub eb bb = eb - bb := u32sub_eq _ _ (by omega) (by unfold u32; omega)
  have hit1 : 1 ≤ ceiling_div (eb - bb) cfg.long_radix_bits :=
    ceiling_div_pos (eb - bb) cfg.long_radix_bits (by omega) hL
  have hitle : ceiling_div (eb - bb) cfg.long_radix_bits ≤ eb - bb :=
    ceiling_div_le_self _ _ hL
  have hsub : u32sub (ceiling_div (eb - bb) cfg.long_radix_bits) 1
      = ceiling_div (eb - bb) cfg.long_radix_bits - 1 :=
    u32sub_eq _ _ hit1 (by unfold u32; omega)
  simp only [scheduler, hbits, hsub]

/-- Claim C3: the output-location flags are computed exactly as
`to_output = with_double_buffer OR ((iterations - 1) is even)` and
`is_result_in_output = (iterations is even) != to_output`, and the
double-buffer entry points swap the handle's buffers after execution exactly
when the temporary storage is non-null and `is_result_in_output` holds;
otherwise no swap occurs. -/
theorem claim_C3 (cfg : Config) (d : Bool) (kf : α → Nat) (o : DeviceOracle)
    (wv : Bool) (ks vs : Nat) (tnull : Bool) (keys : DoubleBuffer α)
    (size segments : Nat) (bo eo : List Nat) (bb eb : Nat) (dbg : Bool)
    (hbe : bb < eb) (heb : eb ≤ 64) (hL : 0 < cfg.long_radix_bits) :
    (∀ wdb : Bool, (scheduler cfg wdb bb eb).to_output
      = (wdb || decide (((scheduler cfg wdb bb eb).iterations - 1) % 2 = 0))) ∧
    (∀ wdb : Bool, (scheduler cfg wdb bb eb).is_result_in_output
      = (decide ((scheduler cfg wdb bb eb).iterations % 2 = 0)
          != (scheduler cfg wdb bb eb).to_output)) ∧
    (segmented_radix_sort_double_buffer cfg d kf o wv ks vs tnull keys size segments
        bo eo bb eb dbg).2
      = (if tnull = false ∧ (segmented_radix_sort_double_buffer cfg d kf o wv ks vs tnull
            keys size segments bo eo bb eb dbg).1.is_result_in_output = true then
          (writeBack keys (scheduler cfg true bb eb).is_result_in_output
            (segmented_radix_sort_double_buffer cfg d kf o wv ks vs tnull keys size
              segments bo eo bb eb dbg).1.out).swap
        else
          writeBack keys (scheduler cfg true bb eb).is_result_in_output
            (segmented_radix_sort_double_buffer cfg d kf o wv ks vs tnull keys size
              segments bo eo bb eb dbg).1.out) := by
  exact ⟨fun wdb => scheduler_to_output_eq cfg wdb bb eb hbe heb hL,
    fun wdb => rfl, rfl⟩

/-- Witness for claim C3 at a concrete double-buffer call. -/
theorem claim_C3_witness :
    ((0 : Nat) < 6 ∧ (6 : Nat) ≤ 64 ∧ 0 < cfg43.long_radix_bits) ∧
    ((scheduler cfg43 true 0 6).to_output
      = (true || decide (((scheduler cfg43 true 0 6).iterations - 1) % 2 = 0))) ∧
    ((scheduler cfg43 false 0 6).is_result_in_output
      = (decide ((scheduler cfg43 false 0 6).iterations % 2 = 0)
          != (scheduler cfg43 false 0 6).to_output)) ∧
    ((segmented_radix_sort_double_buffer cfg43 false (fun x : Nat => x) oracleOk false 4 0
        false ⟨[2, 1], [0, 0]⟩ 2 1 [0] [2] 0 6 false).2
      = (if false = false ∧ (segmented_radix_sort_double_buffer cfg43 false
              (fun x : Nat => x) oracleOk false 4 0 false ⟨[2, 1], [0, 0]⟩ 2 1 [0] [2]
              0 6 false).1.is_result_in_output = true then
          (writeBack ⟨[2, 1], [0, 0]⟩ (scheduler cfg43 true 0 6).is_result_in_output
            (segmented_radix_sort_double_buffer cfg43 false (fun x : Nat => x) oracleOk
              false 4 0 false ⟨[2, 1], [0, 0]⟩ 2 1 [0] [2] 0 6 false).1.out).swap
        else
          writeBack ⟨[2, 1], [0, 0]⟩ (scheduler cfg43 true 0 6).is_result_in_output
            (segmented_radix_sort_double_buffer cfg43 false (fun x : Nat => x) oracleOk
              false 4 0 false ⟨[2, 1], [0, 0]⟩ 2 1 [0] [2] 0 6 false).1.out)) := by
  have h := claim_C3 cfg43 false (fun x : Nat => x) oracleOk false 4 0 false
    ⟨[2, 1], [0, 0]⟩ 2 1 [0] [2] 0 6 false (by decide) (by decide) (by decide)
  exact ⟨by decide, h.1 true, h.2.1 false, h.2.2⟩

theorem sentinel_pos (t : Nat) : 0 < if t = 0 then 4 else t := by
  split
  · omega
  · omega

/-- Claim C4: a sizing call (null temporary storage pointer) succeeds when
the nested partition sizing succeeds, writes the region-sum size — aligned
key scratch plus aligned value scratch when no caller double buffer, plus
the classification regions and the partition requirement when classification
will run, with a zero total replaced by the sentinel 4, hence strictly
positive — and performs no sorting: no kernel is dispatched and the output
location is untouched. -/
theorem claim_C4 (cfg : Config) (d : Bool) (kf : α → Nat) (o : DeviceOracle)
    (wv : Bool) (ks vs : Nat) (wdb : Bool) (c : SortCall α) (dbg : Bool)
    (hps : do_partitioning cfg c.segments = true → o.partition_sizing_status = 0) :
    (segmented_radix_sort_impl cfg d kf o wv ks vs true wdb c dbg).status = 0 ∧
    (segmented_radix_sort_impl cfg d kf o wv ks vs true wdb c dbg).storage_size
      = some (queryStorageSize cfg wv wdb ks vs c o.partition_storage_size) ∧
    0 < queryStorageSize cfg wv wdb ks vs c o.partition_storage_size ∧
    (segmented_radix_sort_impl cfg d kf o wv ks vs true wdb c dbg).out = c.out_prev ∧
    (segmented_radix_sort_impl cfg d kf o wv ks vs true wdb c dbg).kernels = 0 ∧
    queryStorageSize cfg wv wdb ks vs c o.partition_storage_size
      = (if (if do_partitioning cfg c.segments = true then
              (if wdb = true then 0
                else align_size (c.size * ks) + (if wv = true then align_size (c.size * vs) else 0))
                + align_size (c.segments * 4) + align_size 4 + o.partition_storage_size
            else
              (if wdb = true then 0
                else align_size (c.size * ks) + (if wv = true then align_size (c.size * vs) else 0)))
            = 0 then 4
        else
          (if do_partitioning cfg c.segments = true then
            (if wdb = true then 0
              else align_size (c.size * ks) + (if wv = true then align_size (c.size * vs) else 0))
              + align_size (c.segments * 4) + align_size 4 + o.partition_storage_size
          else
            (if wdb = true then 0
              else align_size (c.size * ks) + (if wv = true then align_size (c.size * vs) else 0)))) := by
  have hcond : ¬ (do_partitioning cfg c.segments = true ∧ o.partition_sizing_status ≠ 0) := by
    rintro ⟨h1, h2⟩
    exact h2 (hps h1)
  simp only [segmented_radix_sort_impl, if_pos rfl, if_neg hcond]
  refine ⟨rfl, rfl, ?_, rfl, rfl, rfl⟩
  exact sentinel_pos _

/-- Witness for claim C4 at a concrete sizing call. -/
theorem claim_C4_witness :
    (do_partitioning cfg43 (3 : Nat) = true → oracleOk.partition_sizing_status = 0) ∧
    ((segmented_radix_sort_impl cfg43 false (fun x : Nat => x) oracleOk true 4 4 true false
        ⟨8, 3, [0, 2, 3], [2, 3, 8], 0, 32, [6, 3, 5, 4, 2, 8, 1, 7], [0, 0, 0, 0, 0, 0, 0, 0]⟩
        false).status = 0 ∧
      0 < queryStorageSize cfg43 true false 4 4
        ⟨8, 3, [0, 2, 3], [2, 3, 8], 0, 32, [6, 3, 5, 4, 2, 8, 1, 7], [0, 0, 0, 0, 0, 0, 0, 0]⟩
        oracleOk.partition_storage_size) := by
  have h := claim_C4 cfg43 false (fun x : Nat => x) oracleOk true 4 4 false
    ⟨8, 3, [0, 2, 3], [2, 3, 8], 0, 32, [6, 3, 5, 4, 2, 8, 1, 7], [0, 0, 0, 0, 0, 0, 0, 0]⟩
    false (fun _ => rfl)
  exact ⟨fun _ => rfl, h.1, h.2.2.1⟩

/-- The threshold the claim designates: the small-strategy's per-group
capacity, sub-groups-per-group × items-per-sub-group. -/
def claimed_group_capacity (cfg : Config) : Nat :=
  small_segments_per_block cfg * max_small_segment_length cfg

/-- A warp-sort configuration with more than one sub-group per group:
block size 64, logical warp size 32, 2 items per thread. -/
def cfgWide : Config := ⟨7, 6, 64, 32, 2, 1, true⟩

/-- A one-segment call whose single segment has length 100. -/
def callOneSeg : SortCall Nat := ⟨100, 1, [0], [100], 0, 8, [], []⟩

/-- Claim C5, counterexample: the code classifies by the per-sub-group
capacity `items_per_thread * logical_warp_size` (source lines 223-224), not
by the per-group capacity the claim states: with block size 64, warp size 32
and 2 items per thread the code's threshold is 64 while the claimed
threshold is 128, and a segment of length 100 is routed to the
large-segment strategy although its length does not exceed the claimed
threshold. -/
theorem claim_C5_counterexample :
    largeIndices cfgWide callOneSeg = [0] ∧
    ¬ (claimed_group_capacity cfgWide < segment_length callOneSeg 0) := by decide

/-- Claim C5 (amended): when classification runs, the segment indices
`[0, segment_count)` are partitioned stably by the predicate
"segment length > threshold" with the threshold equal to the per-sub-group
capacity `items_per_thread * logical_warp_size`: all large-segment indices
first in original (increasing) order, then the small-segment indices in
original order, and the returned count is the number of large segments;
consequently every segment dispatched to the small-segment strategy has
length at most that threshold. -/
theorem claim_C5 (cfg : Config) (c : SortCall α) :
    stablePartition (large_segment_selector cfg c) c.segments
      = (largeIndices cfg c ++ smallIndices cfg c, (largeIndices cfg c).length) ∧
    List.Sublist (largeIndices cfg c) (List.range c.segments) ∧
    List.Sublist (smallIndices cfg c) (List.range c.segments) ∧
    List.Pairwise (· < ·) (largeIndices cfg c) ∧
    List.Pairwise (· < ·) (smallIndices cfg c) ∧
    (∀ i ∈ largeIndices cfg c, max_small_segment_length cfg < segment_length c i) ∧
    (∀ i ∈ smallIndices cfg c, segment_length c i ≤ max_small_segment_length cfg) ∧
    (largeIndices cfg c).length + (smallIndices cfg c).length = c.segments := by
  refine ⟨rfl, List.filter_sublist _, List.filter_sublist _,
    List.Pairwise.sublist (List.filter_sublist _) (List.pairwise_lt_range _),
    List.Pairwise.sublist (List.filter_sublist _) (List.pairwise_lt_range _),
    ?_, ?_, large_small_counts cfg c⟩
  · intro i hi
    have h := (List.mem_filter.mp hi).2
    simpa [large_segment_selector] using h
  · intro i hi
    have h := (List.mem_filter.mp hi).2
    have h2 : large_segment_selector cfg c i = false := by
      revert h
      cases large_segment_selector cfg c i <;> simp
    have h3 : ¬ (max_small_segment_length cfg < segment_length c i) := by
      simpa [large_segment_selector] using h2
    omega

/-- Witness for the amended claim C5 at a concrete call. -/
theorem claim_C5_witness :
    stablePartition (large_segment_selector cfgWide callOneSeg) callOneSeg.segments
      = (largeIndices cfgWide callOneSeg ++ smallIndices cfgWide callOneSeg,
          (largeIndices cfgWide callOneSeg).length) ∧
    max_small_segment_length cfgWide < segment_length callOneSeg 0 := by
  have h := claim_C5 cfgWide callOneSeg
  exact ⟨h.1, h.2.2.2.2.2.1 0 (by decide)⟩

theorem DoubleBuffer.eta (b : DoubleBuffer α) :
    (⟨b.current, b.alternate⟩ : DoubleBuffer α) = b := rfl

/-- A configuration whose pass count for the bit range `[0, 4)` is odd
(one 4-bit pass). -/
def cfg44 : Config := ⟨4, 4, 256, 32, 1, 3000, true⟩

/-- Claim C6, counterexample: an execute-phase call with segment count 0 in
the double-buffer convention is not a complete no-op: `is_result_in_output`
is computed before the zero-segment early return (source line 237 versus
line 277) and the swap guard (source lines 1050-1054) does not test the
segment count, so the handle's current/alternate buffers are still
swapped. -/
theorem claim_C6_counterexample :
    (segmented_radix_sort_double_buffer cfg44 false (fun x : Nat => x) oracleOk false 4 0
        false ⟨[1], [2]⟩ 1 0 [] [] 0 4 false).2
      ≠ (⟨[1], [2]⟩ : DoubleBuffer Nat) := by decide

/-- Claim C6 (amended): an execute-phase call with segment count 0 returns
success, performs no sorting work — no kernel dispatch, no diagnostic output
— and leaves all buffer contents untouched, in all entry points of both
calling conventions; however, the double-buffer entry points still swap the
handle's current/alternate roles exactly when `is_result_in_output` holds
(the contents of both buffers are unchanged). -/
theorem claim_C6 (cfg : Config) (d : Bool) (kf : α → Nat) (o : DeviceOracle)
    (wv : Bool) (ks vs : Nat) (c : SortCall α) (dbg : Bool)
    (keys : DoubleBuffer α) (size : Nat) (bo eo : List Nat) (bb eb : Nat)
    (hseg : c.segments = 0) :
    (segmented_radix_sort_call cfg d kf o wv ks vs false c dbg).status = 0 ∧
    (segmented_radix_sort_call cfg d kf o wv ks vs false c dbg).out = c.out_prev ∧
    (segmented_radix_sort_call cfg d kf o wv ks vs false c dbg).kernels = 0 ∧
    (segmented_radix_sort_call cfg d kf o wv ks vs false c dbg).log = [] ∧
    (segmented_radix_sort_double_buffer cfg d kf o wv ks vs false keys size 0 bo eo
        bb eb dbg).1.status = 0 ∧
    (segmented_radix_sort_double_buffer cfg d kf o wv ks vs false keys size 0 bo eo
        bb eb dbg).1.kernels = 0 ∧
    (segmented_radix_sort_double_buffer cfg d kf o wv ks vs false keys size 0 bo eo
        bb eb dbg).2
      = (if (scheduler cfg true bb eb).is_result_in_output = true then keys.swap
        else keys) := by
  have himpl : ∀ (wdbv : Bool) (c2 : SortCall α), c2.segments = 0 →
      segmented_radix_sort_impl cfg d kf o wv ks vs false wdbv c2 dbg
        = ⟨0, none, c2.out_prev,
            (scheduler cfg wdbv c2.begin_bit c2.end_bit).is_result_in_output, 0, []⟩ := by
    intro wdbv c2 h0
    simp only [segmented_radix_sort_impl, h0, Bool.false_eq_true, if_false, if_true,
      if_pos, if_neg, not_false_eq_true]
  have hc := himpl false c hseg
  have hdb := himpl true ⟨size, 0, bo, eo, bb, eb, keys.current,
    if (scheduler cfg true bb eb).is_result_in_output then keys.alternate
    else keys.current⟩ rfl
  refine ⟨?_, ?_, ?_, ?_, ?_, ?_, ?_⟩
  · rw [segmented_radix_sort_call, hc]
  · rw [segmented_radix_sort_call, hc]
  · rw [segmented_radix_sort_call, hc]
  · rw [segmented_radix_sort_call, hc]
  · simp only [segmented_radix_sort_double_buffer, hdb]
  · simp only [segmented_radix_sort_double_buffer, hdb]
  · simp only [segmented_radix_sort_double_buffer, hdb]
    cases hflag : (scheduler cfg true bb eb).is_result_in_output <;>
      simp [hflag, writeBack, DoubleBuffer.swap, DoubleBuffer.eta]

/-- Witness for the amended claim C6 at a concrete zero-segment call. -/
theorem claim_C6_witness :
    (segmented_radix_sort_call cfg44 false (fun x : Nat => x) oracleOk false 4 0 false
        ⟨1, 0, [], [], 0, 4, [5], [9]⟩ false).status = 0 ∧
    (segmented_radix_sort_call cfg44 false (fun x : Nat => x) oracleOk false 4 0 false
        ⟨1, 0, [], [], 0, 4, [5], [9]⟩ false).out = [9] ∧
    (segmented_radix_sort_double_buffer cfg44 false (fun x : Nat => x) oracleOk false 4 0
        false ⟨[1], [2]⟩ 1 0 [] [] 0 4 false).2
      = (if (scheduler cfg44 true 0 4).is_result_in_output = true then
          DoubleBuffer.swap ⟨[1], [2]⟩ else ⟨[1], [2]⟩) := by
  have h := claim_C6 cfg44 false (fun x : Nat => x) oracleOk false 4 0
    ⟨1, 0, [], [], 0, 4, [5], [9]⟩ false ⟨[1], [2]⟩ 1 [] [] 0 4 rfl
  exact ⟨h.1, h.2.1, h.2.2.2.2.2.2⟩

/-- Claim C7: for every input — valid pairwise disjoint segment offsets, a
bit range within the supported 64-bit key width, a configuration with
positive bounded radix widths — the final result is identical whether the
call takes the length-based classification path (large-segment and
small-segment strategies over the partitioned index sets) or the uniform
fallback path (the large-segment algorithm applied to every segment): the
classification threshold affects performance only, never the output. -/
theorem claim_C7 (cfg : Config) (d : Bool) (kf : α → Nat) (c : SortCall α) (wdb : Bool)
    (hbe : c.begin_bit ≤ c.end_bit) (heb : c.end_bit ≤ 64)
    (hL : 0 < cfg.long_radix_bits) (hL64 : cfg.long_radix_bits ≤ 64)
    (hSL : cfg.short_radix_bits ≤ cfg.long_radix_bits)
    (hvalid : ValidSegs ((List.range c.segments).map (offsPair c)) c.data.length)
    (hdisj : ((List.range c.segments).map (offsPair c)).Pairwise disjSeg)
    (hlen : c.out_prev.length = c.data.length) :
    partitionedDispatch cfg d kf c (scheduler cfg wdb c.begin_bit c.end_bit)
      = uniformDispatch cfg d kf c (scheduler cfg wdb c.begin_bit c.end_bit) :=
  partitionedDispatch_eq_uniformDispatch cfg d kf c _
    (scheduler_covers cfg wdb c.begin_bit c.end_bit hbe heb hL hL64 hSL)
    hvalid hdisj hlen

/-- A mixed call: one segment of length 40 (large for `cfgWide`) and two
short segments, over 43 elements. -/
def callMixed : SortCall Nat :=
  ⟨43, 3, [0, 40, 41], [40, 41, 43], 0, 7,
    (List.range 40).reverse ++ [7, 9, 2], List.replicate 43 0⟩

/-- Witness for claim C7 at a concrete call exercising both strategies. -/
theorem claim_C7_witness :
    (callMixed.begin_bit ≤ callMixed.end_bit ∧ callMixed.end_bit ≤ 64 ∧
      0 < cfgWide.long_radix_bits ∧ cfgWide.long_radix_bits ≤ 64 ∧
      cfgWide.short_radix_bits ≤ cfgWide.long_radix_bits) ∧
    partitionedDispatch cfgWide false (fun x : Nat => x) callMixed
        (scheduler cfgWide false callMixed.begin_bit callMixed.end_bit)
      = uniformDispatch cfgWide false (fun x : Nat => x) callMixed
          (scheduler cfgWide false callMixed.begin_bit callMixed.end_bit) :=
  ⟨by decide,
    claim_C7 cfgWide false (fun x : Nat => x) callMixed false (by decide) (by decide)
      (by decide) (by decide) (by decide) (by decide) (by decide) (by decide)⟩

/-- On an error-free device, the double-buffer entry point leaves in the
handle's current buffer exactly the dispatched result. -/
theorem double_buffer_out_allOk (cfg : Config) (d : Bool) (kf : α → Nat)
    (o : DeviceOracle) (wv : Bool) (ks vs : Nat) (keys : DoubleBuffer α)
    (size segments : Nat) (bo eo : List Nat) (bb eb : Nat) (dbg : Bool)
    (hO : o.allOk) (hseg : segments ≠ 0) :
    (segmented_radix_sort_double_buffer cfg d kf o wv ks vs false keys size segments
        bo eo bb eb dbg).2.current
      = (if do_partitioning cfg segments = true then
          partitionedDispatch cfg d kf
            ⟨size, segments, bo, eo, bb, eb, keys.current,
              if (scheduler cfg true bb eb).is_result_in_output then keys.alternate
              else keys.current⟩ (scheduler cfg true bb eb)
        else
          uniformDispatch cfg d kf
            ⟨size, segments, bo, eo, bb, eb, keys.current,
              if (scheduler cfg true bb eb).is_result_in_output then keys.alternate
              else keys.current⟩ (scheduler cfg true bb eb)) := by
  obtain ⟨hst, hout⟩ := impl_out_allOk cfg d kf o wv ks vs true
    ⟨size, segments, bo, eo, bb, eb, keys.current,
      if (scheduler cfg true bb eb).is_result_in_output then keys.alternate
      else keys.current⟩ dbg hO hseg
  simp only [segmented_radix_sort_double_buffer, impl_is_result_in_output]
  rw [hout]
  cases hflag : (scheduler cfg true bb eb).is_result_in_output <;>
    simp [hflag, writeBack, DoubleBuffer.swap]

/-- Claim C1: for every call of any of the entry points (ascending or
descending, keys-only or pairs via the key projection, in either calling
convention) on an error-free device, with valid pairwise disjoint segment
offsets, `begin_bit < end_bit` within the supported 64-bit key width, and a
configuration with positive bounded radix widths, the produced output
equals, for each segment `[begin_offsets[i], end_offsets[i])`, the stable
sort of that segment's input elements ordered by comparing only the key
bits in `[begin_bit, end_bit)` (ascending or descending per the entry
point); equal keys keep their original relative order. -/
theorem claim_C1 (cfg : Config) (d : Bool) (kf : α → Nat) (o : DeviceOracle)
    (wv : Bool) (ks vs : Nat) (c : SortCall α) (keys : DoubleBuffer α) (dbg : Bool)
    (hO : o.allOk)
    (hbe : c.begin_bit < c.end_bit) (heb : c.end_bit ≤ 64)
    (hL : 0 < cfg.long_radix_bits) (hL64 : cfg.long_radix_bits ≤ 64)
    (hSL : cfg.short_radix_bits ≤ cfg.long_radix_bits)
    (hvalid : ValidSegs ((List.range c.segments).map (offsPair c)) c.data.length)
    (hdisj : ((List.range c.segments).map (offsPair c)).Pairwise disjSeg)
    (hlen : c.out_prev.length = c.data.length)
    (hcur : keys.current = c.data) (halt : keys.alternate.length = c.data.length) :
    (∀ i, i < c.segments →
      sliceList (c.begin_offsets.getD i 0) (c.end_offsets.getD i 0)
          (segmented_radix_sort_call cfg d kf o wv ks vs false c dbg).out
        = specSort d kf c.begin_bit c.end_bit
            (sliceList (c.begin_offsets.getD i 0) (c.end_offsets.getD i 0) c.data)) ∧
    (∀ i, i < c.segments →
      sliceList (c.begin_offsets.getD i 0) (c.end_offsets.getD i 0)
          (segmented_radix_sort_double_buffer cfg d kf o wv ks vs false keys c.size
            c.segments c.begin_offsets c.end_offsets c.begin_bit c.end_bit
            dbg).2.current
        = specSort d kf c.begin_bit c.end_bit
            (sliceList (c.begin_offsets.getD i 0) (c.end_offsets.getD i 0) c.data)) := by
  have hcov : c.end_bit - c.begin_bit
      ≤ (scheduler cfg false c.begin_bit c.end_bit).long_iterations
          * cfg.long_radix_bits
        + (scheduler cfg false c.begin_bit c.end_bit).short_iterations
          * cfg.short_radix_bits :=
    scheduler_covers cfg false c.begin_bit c.end_bit (by omega) heb hL hL64 hSL
  constructor
  · intro i hi
    have hseg : c.segments ≠ 0 := by omega
    obtain ⟨hst, hout⟩ := impl_out_allOk cfg d kf o wv ks vs false c dbg hO hseg
    show sliceList (c.begin_offsets.getD i 0) (c.end_offsets.getD i 0)
        (segmented_radix_sort_impl cfg d kf o wv ks vs false false c dbg).out = _
    rw [hout]
    by_cases hdp : do_partitioning cfg c.segments = true
    · rw [if_pos hdp,
        partitionedDispatch_eq_uniformDispatch cfg d kf c _ hcov hvalid hdisj hlen]
      exact uniformDispatch_slice cfg d kf c _ i hi hcov hvalid hdisj hlen
    · rw [if_neg hdp]
      exact uniformDispatch_slice cfg d kf c _ i hi hcov hvalid hdisj hlen
  · intro i hi
    have hseg : c.segments ≠ 0 := by omega
    rw [double_buffer_out_allOk cfg d kf o wv ks vs keys c.size c.segments
      c.begin_offsets c.end_offsets c.begin_bit c.end_bit dbg hO hseg]
    have hcov2 : c.end_bit - c.begin_bit
        ≤ (scheduler cfg true c.begin_bit c.end_bit).long_iterations
            * cfg.long_radix_bits
          + (scheduler cfg true c.begin_bit c.end_bit).short_iterations
            * cfg.short_radix_bits :=
      scheduler_covers cfg true c.begin_bit c.end_bit (by omega) heb hL hL64 hSL
    have hprevlen : (if (scheduler cfg true c.begin_bit c.end_bit).is_result_in_output
        then keys.alternate else keys.current).length = keys.current.length := by
      cases (scheduler cfg true c.begin_bit c.end_bit).is_result_in_output <;>
        simp [hcur, halt]
    have hvalid2 : ValidSegs ((List.range c.segments).map (offsPair c))
        keys.current.length := by
      rw [hcur]
      exact hvalid
    have h := uniformDispatch_slice cfg d kf
      ⟨c.size, c.segments, c.begin_offsets, c.end_offsets, c.begin_bit, c.end_bit,
        keys.current,
        if (scheduler cfg true c.begin_bit c.end_bit).is_result_in_output
        then keys.alternate else keys.current⟩
      (scheduler cfg true c.begin_bit c.end_bit) i hi hcov2 hvalid2 hdisj hprevlen
    by_cases hdp : do_partitioning cfg c.segments = true
    · rw [if_pos hdp,
        partitionedDispatch_eq_uniformDispatch cfg d kf
          ⟨c.size, c.segments, c.begin_offsets, c.end_offsets, c.begin_bit, c.end_bit,
            keys.current,
            if (scheduler cfg true c.begin_bit c.end_bit).is_result_in_output
            then keys.alternate else keys.current⟩
          (scheduler cfg true c.begin_bit c.end_bit) hcov2 hvalid2 hdisj hprevlen]
      rw [← hcur]
      exact h
    · rw [if_neg hdp]
      rw [← hcur]
      exact h

/-- The example call of the specification: keys `[6,3,5,4,2,8,1,7]` with
offsets `[0,2,3,8]`, full 8-bit range. -/
def callExample : SortCall Nat :=
  ⟨8, 3, [0, 2, 3], [2, 3, 8], 0, 8, [6, 3, 5, 4, 2, 8, 1, 7], [0, 0, 0, 0, 0, 0, 0, 0]⟩

/-- Witness for claim C1 at the specification's example, third segment. -/
theorem claim_C1_witness :
    (sliceList 3 8 (segmented_radix_sort_call cfg44 false (fun x : Nat => x) oracleOk
        false 4 4 false callExample false).out
      = specSort false (fun x : Nat => x) 0 8 (sliceList 3 8 callExample.data)) ∧
    (sliceList 3 8 (segmented_radix_sort_double_buffer cfg44 false (fun x : Nat => x)
        oracleOk false 4 4 false ⟨[6, 3, 5, 4, 2, 8, 1, 7], [0, 0, 0, 0, 0, 0, 0, 0]⟩
        callExample.size callExample.segments callExample.begin_offsets
        callExample.end_offsets callExample.begin_bit callExample.end_bit
        false).2.current
      = specSort false (fun x : Nat => x) 0 8 (sliceList 3 8 callExample.data)) := by
  have h := claim_C1 cfg44 false (fun x : Nat => x) oracleOk false 4 4 callExample
    ⟨[6, 3, 5, 4, 2, 8, 1, 7], [0, 0, 0, 0, 0, 0, 0, 0]⟩ false oracleOk_allOk
    (by decide) (by decide) (by decide) (by decide) (by decide) (by decide) (by decide)
    (by decide) rfl (by decide)
  exact ⟨h.1 2 (by decide), h.2 2 (by decide)⟩

/-- Claim C8: a failure of the nested partition primitive's sizing call is
returned unchanged by the sizing call, and the query phase performs no
device mutation (no kernel dispatched, output untouched) whatever the
outcome; during execution, an error from the partition primitive or from
the large-segment-count read-back (the copy or the synchronization) aborts
the whole sort with that error, before any kernel is dispatched and with no
retry, leaving the output untouched. -/
theorem claim_C8 (cfg : Config) (d : Bool) (kf : α → Nat) (o : DeviceOracle)
    (wv : Bool) (ks vs : Nat) (wdb : Bool) (c : SortCall α) (dbg : Bool) :
    (do_partitioning cfg c.segments = true → o.partition_sizing_status ≠ 0 →
      (segmented_radix_sort_impl cfg d kf o wv ks vs true wdb c dbg).status
        = o.partition_sizing_status) ∧
    ((segmented_radix_sort_impl cfg d kf o wv ks vs true wdb c dbg).out = c.out_prev ∧
      (segmented_radix_sort_impl cfg d kf o wv ks vs true wdb c dbg).kernels = 0) ∧
    (c.segments ≠ 0 → do_partitioning cfg c.segments = true →
      (o.partition_run_status ≠ 0 →
        (segmented_radix_sort_impl cfg d kf o wv ks vs false wdb c false).status
          = o.partition_run_status ∧
        (segmented_radix_sort_impl cfg d kf o wv ks vs false wdb c false).out
          = c.out_prev ∧
        (segmented_radix_sort_impl cfg d kf o wv ks vs false wdb c false).kernels = 0) ∧
      (o.partition_run_status = 0 → o.readback_copy_status ≠ 0 →
        (segmented_radix_sort_impl cfg d kf o wv ks vs false wdb c false).status
          = o.readback_copy_status ∧
        (segmented_radix_sort_impl cfg d kf o wv ks vs false wdb c false).out
          = c.out_prev ∧
        (segmented_radix_sort_impl cfg d kf o wv ks vs false wdb c false).kernels = 0) ∧
      (o.partition_run_status = 0 → o.readback_copy_status = 0 →
        o.readback_sync_status ≠ 0 →
        (segmented_radix_sort_impl cfg d kf o wv ks vs false wdb c false).status
          = o.readback_sync_status ∧
        (segmented_radix_sort_impl cfg d kf o wv ks vs false wdb c false).out
          = c.out_prev ∧
        (segmented_radix_sort_impl cfg d kf o wv ks vs false wdb c false).kernels = 0)) := by
  have hf : ¬ (false = true) := by simp
  have hsync : ¬ (false = true ∧ o.sync_status ≠ 0) := by simp
  refine ⟨?_, ⟨?_, ?_⟩, ?_⟩
  · intro hdp hps
    simp only [segmented_radix_sort_impl, if_pos (show do_partitioning cfg c.segments
      = true ∧ o.partition_sizing_status ≠ 0 from ⟨hdp, hps⟩)]
    rfl
  · by_cases hq : do_partitioning cfg c.segments = true ∧ o.partition_sizing_status ≠ 0
    · simp [segmented_radix_sort_impl, hq]
    · simp [segmented_radix_sort_impl, hq]
  · by_cases hq : do_partitioning cfg c.segments = true ∧ o.partition_sizing_status ≠ 0
    · simp [segmented_radix_sort_impl, hq]
    · simp [segmented_radix_sort_impl, hq]
  · intro hseg hdp
    refine ⟨?_, ?_, ?_⟩
    · intro hpr
      simp only [segmented_radix_sort_impl, if_neg hf, if_neg hseg, if_neg hsync,
        if_pos hdp, if_pos hpr]
      refine ⟨?_, ?_, ?_⟩ <;> trivial
    · intro hpr hrc
      simp only [segmented_radix_sort_impl, if_neg hf, if_neg hseg, if_neg hsync,
        if_pos hdp, if_neg (show ¬ (o.partition_run_status ≠ 0) from by omega),
        if_pos hrc]
      refine ⟨?_, ?_, ?_⟩ <;> trivial
    · intro hpr hrc hrs
      simp only [segmented_radix_sort_impl, if_neg hf, if_neg hseg, if_neg hsync,
        if_pos hdp, if_neg (show ¬ (o.partition_run_status ≠ 0) from by omega),
        if_neg (show ¬ (o.readback_copy_status ≠ 0) from by omega), if_pos hrs]
      refine ⟨?_, ?_, ?_⟩ <;> trivial

/-- An oracle whose partition primitive fails with error code 77. -/
def oracleFailPartition : DeviceOracle := ⟨77, 0, 77, 0, 0, 0, 0, 0, 0⟩

/-- Witness for claim C8 with a failing partition primitive. -/
theorem claim_C8_witness :
    (do_partitioning cfgWide callOneSeg.segments = true ∧
      oracleFailPartition.partition_sizing_status ≠ 0 ∧ callOneSeg.segments ≠ 0 ∧
      oracleFailPartition.partition_run_status ≠ 0) ∧
    ((segmented_radix_sort_impl cfgWide false (fun x : Nat => x) oracleFailPartition
        true 4 4 true false callOneSeg false).status
      = oracleFailPartition.partition_sizing_status) ∧
    ((segmented_radix_sort_impl cfgWide false (fun x : Nat => x) oracleFailPartition
        true 4 4 false false callOneSeg false).status
      = oracleFailPartition.partition_run_status ∧
      (segmented_radix_sort_impl cfgWide false (fun x : Nat => x) oracleFailPartition
        true 4 4 false false callOneSeg false).out = callOneSeg.out_prev ∧
      (segmented_radix_sort_impl cfgWide false (fun x : Nat => x) oracleFailPartition
        true 4 4 false false callOneSeg false).kernels = 0) := by
  have h := claim_C8 cfgWide false (fun x : Nat => x) oracleFailPartition true 4 4
    false callOneSeg false
  exact ⟨by decide, h.1 (by decide) (by decide),
    (h.2.2 (by decide) (by decide)).1 (by decide)⟩

/-- Claim C9: two runs that differ only in the `debug_synchronous` flag
produce identical results whenever the debug synchronizations succeed: same
status, same written storage size, same output contents, same parity flag,
same kernel dispatches, and the same final double-buffer selection; the flag
changes only the diagnostic log. -/
theorem claim_C9 (cfg : Config) (d : Bool) (kf : α → Nat) (o : DeviceOracle)
    (wv : Bool) (ks vs : Nat) (tnull wdb : Bool) (c : SortCall α)
    (keys : DoubleBuffer α) (size segments : Nat) (bo eo : List Nat) (bb eb : Nat)
    (hsync : o.sync_status = 0) :
    (segmented_radix_sort_impl cfg d kf o wv ks vs tnull wdb c true).status
      = (segmented_radix_sort_impl cfg d kf o wv ks vs tnull wdb c false).status ∧
    (segmented_radix_sort_impl cfg d kf o wv ks vs tnull wdb c true).storage_size
      = (segmented_radix_sort_impl cfg d kf o wv ks vs tnull wdb c false).storage_size ∧
    (segmented_radix_sort_impl cfg d kf o wv ks vs tnull wdb c true).out
      = (segmented_radix_sort_impl cfg d kf o wv ks vs tnull wdb c false).out ∧
    (segmented_radix_sort_impl cfg d kf o wv ks vs tnull wdb c true).is_result_in_output
      = (segmented_radix_sort_impl cfg d kf o wv ks vs tnull wdb c
          false).is_result_in_output ∧
    (segmented_radix_sort_impl cfg d kf o wv ks vs tnull wdb c true).kernels
      = (segmented_radix_sort_impl cfg d kf o wv ks vs tnull wdb c false).kernels ∧
    (segmented_radix_sort_double_buffer cfg d kf o wv ks vs tnull keys size segments
        bo eo bb eb true).2
      = (segmented_radix_sort_double_buffer cfg d kf o wv ks vs tnull keys size
          segments bo eo bb eb false).2 := by
  have hst : ∀ (tn wd : Bool) (c2 : SortCall α),
      (segmented_radix_sort_impl cfg d kf o wv ks vs tn wd c2 true).status
        = (segmented_radix_sort_impl cfg d kf o wv ks vs tn wd c2 false).status := by
    intro tn wd c2
    simp only [segmented_radix_sort_impl, hsync, launch_status_sync_ok, ne_eq,
      not_true_eq_false, and_false, if_false, apply_ite ImplResult.status]
  have hss : ∀ (tn wd : Bool) (c2 : SortCall α),
      (segmented_radix_sort_impl cfg d kf o wv ks vs tn wd c2 true).storage_size
        = (segmented_radix_sort_impl cfg d kf o wv ks vs tn wd c2 false).storage_size := by
    intro tn wd c2
    simp only [segmented_radix_sort_impl, hsync, launch_status_sync_ok, ne_eq,
      not_true_eq_false, and_false, if_false, apply_ite ImplResult.storage_size]
  have hout : ∀ (tn wd : Bool) (c2 : SortCall α),
      (segmented_radix_sort_impl cfg d kf o wv ks vs tn wd c2 true).out
        = (segmented_radix_sort_impl cfg d kf o wv ks vs tn wd c2 false).out := by
    intro tn wd c2
    simp only [segmented_radix_sort_impl, hsync, launch_status_sync_ok, ne_eq,
      not_true_eq_false, and_false, if_false, apply_ite ImplResult.out]
  have hkv : ∀ (tn wd : Bool) (c2 : SortCall α),
      (segmented_radix_sort_impl cfg d kf o wv ks vs tn wd c2 true).kernels
        = (segmented_radix_sort_impl cfg d kf o wv ks vs tn wd c2 false).kernels := by
    intro tn wd c2
    simp only [segmented_radix_sort_impl, hsync, launch_status_sync_ok, ne_eq,
      not_true_eq_false, and_false, if_false, apply_ite ImplResult.kernels]
  refine ⟨hst tnull wdb c, hss tnull wdb c, hout tnull wdb c, ?_, hkv tnull wdb c, ?_⟩
  · rw [impl_is_result_in_output, impl_is_result_in_output]
  · simp only [segmented_radix_sort_double_buffer, impl_is_result_in_output]
    rw [hout]

/-- Witness for claim C9 at a concrete sorting call. -/
theorem claim_C9_witness :
    oracleOk.sync_status = 0 ∧
    (segmented_radix_sort_impl cfg44 false (fun x : Nat => x) oracleOk false 4 4 false
        false callExample true).out
      = (segmented_radix_sort_impl cfg44 false (fun x : Nat => x) oracleOk false 4 4
          false false callExample false).out ∧
    (segmented_radix_sort_double_buffer cfg44 false (fun x : Nat => x) oracleOk false 4 4
        false ⟨[6, 3, 5, 4, 2, 8, 1, 7], [0, 0, 0, 0, 0, 0, 0, 0]⟩ 8 3 [0, 2, 3]
        [2, 3, 8] 0 8 true).2
      = (segmented_radix_sort_double_buffer cfg44 false (fun x : Nat => x) oracleOk
          false 4 4 false ⟨[6, 3, 5, 4, 2, 8, 1, 7], [0, 0, 0, 0, 0, 0, 0, 0]⟩ 8 3
          [0, 2, 3] [2, 3, 8] 0 8 false).2 := by
  have h := claim_C9 cfg44 false (fun x : Nat => x) oracleOk false 4 4 false false
    callExample ⟨[6, 3, 5, 4, 2, 8, 1, 7], [0, 0, 0, 0, 0, 0, 0, 0]⟩ 8 3 [0, 2, 3]
    [2, 3, 8] 0 8 rfl
  exact ⟨rfl, h.2.2.1, h.2.2.2.2.2⟩

/-- Byte offset where the segment-index scratch region starts in the carved
temporary storage (source lines 299-311): past the key and value scratch
regions, which exist only without a caller double buffer. -/
def segment_indices_offset (wdb wv : Bool) (size ks vs : Nat) : Nat :=
  if wdb then 0
  else align_size (size * ks) + (if wv then align_size (size * vs) else 0)

/-- The temporary-storage bytes the execute phase dereferences when
classification does not run: the used prefixes of the key scratch and (with
values) value scratch regions; none at all when the caller supplied a double
buffer (source lines 299-306 and 385-399: the uniform kernel receives only
`keys_tmp` and `values_tmp`). -/
def uniform_scratch_touched (wdb wv : Bool) (size ks vs : Nat) (a : Nat) : Prop :=
  wdb = false ∧
    (a < size * ks ∨
      (wv = true ∧ align_size (size * ks) ≤ a ∧ a < align_size (size * ks) + size * vs))

instance uniform_scratch_touched_dec (wdb wv : Bool) (size ks vs a : Nat) :
    Decidable (uniform_scratch_touched wdb wv size ks vs a) :=
  inferInstanceAs (Decidable (wdb = false ∧
    (a < size * ks ∨
      (wv = true ∧ align_size (size * ks) ≤ a ∧ a < align_size (size * ks) + size * vs))))

/-- Claim C10: when classification does not run, the execute phase accesses
only the key-scratch and value-scratch prefix of the temporary storage:
every touched byte lies below the segment-index region's offset — so the
segment-index, large-segment-counter and partition regions, although their
pointers are computed unconditionally, are never read or written — and below
the queried storage size, so a buffer of exactly the queried size (which
excludes those regions in this case) suffices. -/
theorem claim_C10 (cfg : Config) (wv wdb : Bool) (ks vs : Nat) (c : SortCall α)
    (psize : Nat) (hdp : do_partitioning cfg c.segments = false) (a : Nat)
    (ht : uniform_scratch_touched wdb wv c.size ks vs a) :
    a < segment_indices_offset wdb wv c.size ks vs ∧
    a < queryStorageSize cfg wv wdb ks vs c psize := by
  obtain ⟨hw, hcase⟩ := ht
  subst hw
  have h1 : c.size * ks ≤ align_size (c.size * ks) := le_align_size _
  have h2 : c.size * vs ≤ align_size (c.size * vs) := le_align_size _
  by_cases hwv : wv = true
  · subst hwv
    have hoff : segment_indices_offset false true c.size ks vs
        = align_size (c.size * ks) + align_size (c.size * vs) := by
      simp [segment_indices_offset]
    have hq : queryStorageSize cfg true false ks vs c psize
        = (if (align_size (c.size * ks) + align_size (c.size * vs)) = 0 then 4
          else align_size (c.size * ks) + align_size (c.size * vs)) := by
      simp [queryStorageSize, hdp]
    have hbound : a < align_size (c.size * ks) + align_size (c.size * vs) := by
      rcases hcase with hca | ⟨h, hca1, hca2⟩ <;> omega
    rw [hoff, hq]
    refine ⟨hbound, ?_⟩
    by_cases h0 : (align_size (c.size * ks) + align_size (c.size * vs)) = 0
    · rw [if_pos h0]; omega
    · rw [if_neg h0]; exact hbound
  · have hwf : wv = false := by cases wv <;> simp_all
    subst hwf
    have hoff : segment_indices_offset false false c.size ks vs
        = align_size (c.size * ks) := by
      simp [segment_indices_offset]
    have hq : queryStorageSize cfg false false ks vs c psize
        = (if align_size (c.size * ks) = 0 then 4 else align_size (c.size * ks)) := by
      simp [queryStorageSize, hdp]
    have hbound : a < align_size (c.size * ks) := by
      rcases hcase with hca | ⟨hff, hca1, hca2⟩
      · omega
      · exact absurd hff (by simp)
    rw [hoff, hq]
    refine ⟨hbound, ?_⟩
    by_cases h0 : align_size (c.size * ks) = 0
    · rw [if_pos h0]; omega
    · rw [if_neg h0]; exact hbound

/-- Witness for claim C10 at a concrete no-classification call. -/
theorem claim_C10_witness :
    (do_partitioning cfg44 callExample.segments = false ∧
      uniform_scratch_touched false true callExample.size 4 4 3) ∧
    (3 < segment_indices_offset false true callExample.size 4 4 ∧
      3 < queryStorageSize cfg44 true false 4 4 callExample 0) :=
  ⟨⟨by decide, by decide⟩,
    claim_C10 cfg44 true false 4 4 callExample 0 (by decide) 3 (by decide)⟩

end Claims

end SegSort
